import Mathlib

/-!
Verification of the text-normalization, pattern-extraction and
code-association engine of the PDF material-counter program
(`src/main.py`).  Text is modelled as `List Char`; each Python regex of
the source is hand-compiled into a deterministic recursive matcher whose
greedy choices are forced (every quantifier in the source patterns is
followed by an atom that cannot match the quantified class, so the
regex engine's backtracking never changes the outcome).
-/

namespace MaterialCounter

abbrev Chars := List Char

/-- Python `\s` / `str.strip` whitespace (ASCII range used by the program). -/
def isWsChar (c : Char) : Bool :=
  c = ' ' || c = '\t' || c = '\n' || c = '\r' || c = '\x0b' || c = '\x0c'

def isDigitChar (c : Char) : Bool := '0' ≤ c && c ≤ '9'

def isUpperChar (c : Char) : Bool := 'A' ≤ c && c ≤ 'Z'

def isLowerChar (c : Char) : Bool := 'a' ≤ c && c ≤ 'z'

def isAlnumChar (c : Char) : Bool := isUpperChar c || isLowerChar c || isDigitChar c

/-- Python regex word character `\w` (ASCII part): alphanumeric or underscore. -/
def isWordChar (c : Char) : Bool := isAlnumChar c || c = '_'

theorem length_dropWhile_le (p : Char → Bool) (l : Chars) :
    (l.dropWhile p).length ≤ l.length := by
  induction l with
  | nil => simp [List.dropWhile]
  | cons c rest ih =>
    by_cases h : p c
    · simp only [List.dropWhile, h]
      exact Nat.le_trans ih (Nat.le_succ _)
    · simp [List.dropWhile, h]

/-- Drop trailing characters satisfying nothing but whitespace
(`str.rstrip()` restricted to whitespace). -/
def rstripWs : Chars → Chars
  | [] => []
  | c :: rest =>
    let r := rstripWs rest
    if r = [] ∧ isWsChar c then [] else c :: r

/-- `str.strip()`: drop whitespace from both ends. -/
def stripChars (s : Chars) : Chars := rstripWs (s.dropWhile isWsChar)

/-- `text.split("\n")` (Python keeps empty fields). -/
def splitLines : Chars → List Chars
  | [] => [[]]
  | c :: rest =>
    if c = '\n' then [] :: splitLines rest
    else
      match splitLines rest with
      | [] => [[c]]
      | l :: ls => (c :: l) :: ls

/-- `re.sub(r"[’']", "'", text)` (line 131): map curly and straight
apostrophes to the straight apostrophe. -/
def curlyToApos (s : Chars) : Chars :=
  s.map (fun c => if c = '’' || c = '\'' then '\'' else c)

/-- `re.sub(r"\r", "", text)` (line 132). -/
def removeCR (s : Chars) : Chars := s.filter (fun c => c ≠ '\r')

/-- `str.replace(pat, repl)`: leftmost non-overlapping literal
replacement.  Structural recursion on a fuel argument (the wrapper passes
the input length, which always suffices because each step consumes at
least one character). -/
def replaceListAux (pat repl : Chars) : Nat → Chars → Chars
  | 0, s => s
  | _ + 1, [] => []
  | fuel + 1, c :: rest =>
    if pat ≠ [] ∧ pat.isPrefixOf (c :: rest) then
      repl ++ replaceListAux pat repl fuel ((c :: rest).drop pat.length)
    else
      c :: replaceListAux pat repl fuel rest

def replaceList (pat repl : Chars) (s : Chars) : Chars :=
  replaceListAux pat repl s.length s

/-- `re.sub(r"\s+", " ", text)`: collapse each whitespace run to one
space.  Structural recursion on a fuel argument; the wrapper passes the
input length, which always suffices. -/
def collapseWsAux : Nat → Chars → Chars
  | 0, s => s
  | _ + 1, [] => []
  | fuel + 1, c :: rest =>
    if isWsChar c then ' ' :: collapseWsAux fuel (rest.dropWhile isWsChar)
    else c :: collapseWsAux fuel rest

def collapseWs (s : Chars) : Chars := collapseWsAux s.length s

/-- The fixed OCR-confusion substitution table of `clean_ocr_text`
(lines 68-80), in insertion order. -/
def ocrReplacements : List (Chars × Chars) :=
  [ (['ﬁ'], ['f', 'i'])
  , (['ﬂ'], ['f', 'l'])
  , (['.', '.'], ['.'])
  , (['c', 'm'], ['c', 'm'])
  , (['e', 'm'], ['c', 'm'])
  , (['m', '\''], ['m'])
  , (['m', '"'], ['m'])
  , (['L', ' ', '='], ['L', '='])
  , (['L', '=', ' '], ['L', '='])
  , ([' ', ','], [','])
  , ([' ', '\''], ['\'']) ]

def applyReplacements (s : Chars) : Chars :=
  ocrReplacements.foldl (fun t pr => replaceList pr.1 pr.2 t) s

/-- `re.sub(r"[|!\"';~_]", "", text)` (line 84): strip noise punctuation. -/
def noiseChars : List Char := ['|', '!', '"', '\'', ';', '~', '_']

def stripNoise (s : Chars) : Chars := s.filter (fun c => decide (c ∉ noiseChars))

/-- `clean_ocr_text` (lines 65-86): substitution table, noise strip,
whitespace collapse and trim. -/
def clean_ocr_text (s : Chars) : Chars :=
  stripChars (collapseWs (stripNoise (applyReplacements s)))

/-- The full normalization pipeline named by the specification: curly-quote
replacement and carriage-return stripping (lines 131-132) composed with the
`clean_ocr_text` stages (substitution table, noise strip, whitespace
collapse). -/
def normalize (s : Chars) : Chars :=
  stripChars (collapseWs (stripNoise (applyReplacements (removeCR (curlyToApos s)))))

section Parsers

/-- `\d+`: maximal non-empty digit run, returning (run, rest). -/
def pDigits (s : Chars) : Option (Chars × Chars) :=
  let d := s.takeWhile isDigitChar
  if d = [] then none else some (d, s.dropWhile isDigitChar)

/-- Case-insensitive comparison of an input character `a` against a
pattern character `b` given in lowercase (ASCII): `a` matches `b` itself
or, when `a` is an uppercase letter, its lowercase image. -/
def charCiEq (a b : Char) : Bool :=
  a = b || (isUpperChar a && a.toNat + 32 = b.toNat)

/-- Case-insensitive literal: consume characters spelling the lowercase
pattern `t`, returning (consumed, rest). -/
def pCi : Chars → Chars → Option (Chars × Chars)
  | [], s => some ([], s)
  | _ :: _, [] => none
  | tc :: ts, c :: rest =>
    if charCiEq c tc then
      match pCi ts rest with
      | some (con, rem) => some (c :: con, rem)
      | none => none
    else none

/-- Optional case-insensitive literal (regex `(?:t)?`, greedy). -/
def pOptCi (t : Chars) (s : Chars) : Chars × Chars :=
  match pCi t s with
  | some r => r
  | none => ([], s)

/-- Single literal character. -/
def pChar (ch : Char) (s : Chars) : Option Chars :=
  match s with
  | c :: rest => if c = ch then some rest else none
  | [] => none

/-- Optional single character (regex `[c]?`, greedy). -/
def pOptChar (c : Char) (s : Chars) : Chars × Chars :=
  match s with
  | [] => ([], s)
  | x :: r => if x = c then ([x], r) else ([], s)

/-- `(?:/\d+)*`, greedy: each iteration consumes a slash and a non-empty
digit run.  Structural recursion on a fuel argument; the wrapper passes
the input length, which always suffices. -/
def pSlashesAux : Nat → Chars → Chars × Chars
  | 0, s => ([], s)
  | _ + 1, [] => ([], [])
  | fuel + 1, c :: rest =>
    if c = '/' then
      let d := rest.takeWhile isDigitChar
      if d = [] then ([], c :: rest)
      else
        let (a, b) := pSlashesAux fuel (rest.dropWhile isDigitChar)
        (c :: (d ++ a), b)
    else ([], c :: rest)

def pSlashes (s : Chars) : Chars × Chars := pSlashesAux s.length s

/-- The tail `(?:cm)?[,]?L=\d+\.?\d*m[']?` of Format 1 of
`material_pattern` (line 138), anchored at the head of `s3`: returns the
consumed characters. -/
def matchFormat1Tail (s3 : Chars) : Option Chars :=
  let (cmP, s4) := pOptCi ['c', 'm'] s3
  let (commaP, s5) := pOptChar ',' s4
  match pCi ['l', '='] s5 with
  | none => none
  | some (lP, s6) =>
  match pDigits s6 with
  | none => none
  | some (d3, s7) =>
  let (fracP, s8) :=
    match pChar '.' s7 with
    | some t => ('.' :: t.takeWhile isDigitChar, t.dropWhile isDigitChar)
    | none => ([], s7)
  match s8 with
  | [] => none
  | m :: s9 =>
    if charCiEq m 'm' then
      let (apP, _) := pOptChar '\'' s9
      some (cmP ++ commaP ++ lP ++ d3 ++ fracP ++ [m] ++ apP)
    else none

/-- Format 1 of `material_pattern` (line 138), anchored at the head of `s`:
`\d+Rfi(?:\d+(?:/\d+)*)?(?:cm)?[,]?L=\d+\.?\d*m[']?` with `re.IGNORECASE`.
Returns the matched characters. -/
def matchFormat1At (s : Chars) : Option Chars :=
  match pDigits s with
  | none => none
  | some (d1, s1) =>
  match pCi ['r', 'f', 'i'] s1 with
  | none => none
  | some (rfi, s2) =>
  let (grp, s3) :=
    match pDigits s2 with
    | none => ([], s2)
    | some (d2, t) =>
      let (sl, t2) := pSlashes t
      (d2 ++ sl, t2)
  match matchFormat1Tail s3 with
  | none => none
  | some tail => some (d1 ++ rfi ++ grp ++ tail)

/-- Format 2 of `material_pattern` (line 140), anchored at the head of `s`:
`\d+Rfi\d+/\d+cm` with `re.IGNORECASE`. -/
def matchFormat2At (s : Chars) : Option Chars :=
  match pDigits s with
  | none => none
  | some (d1, s1) =>
  match pCi ['r', 'f', 'i'] s1 with
  | none => none
  | some (rfi, s2) =>
  match pDigits s2 with
  | none => none
  | some (d2, s3) =>
  match pChar '/' s3 with
  | none => none
  | some s4 =>
  match pDigits s4 with
  | none => none
  | some (d3, s5) =>
  match pCi ['c', 'm'] s5 with
  | none => none
  | some (cmP, _) => some (d1 ++ rfi ++ d2 ++ '/' :: d3 ++ cmP)

/-- `material_pattern` anchored at the head of `s`: alternation prefers
Format 1, as Python's regex alternation does at a fixed start position. -/
def matchMaterialAt (s : Chars) : Option Chars :=
  match matchFormat1At s with
  | some m => some m
  | none => matchFormat2At s

/-- `material_pattern.search`: leftmost match; returns the matched
characters and the offset of the match end (`mat_match.end()`). -/
def materialSearchAux : Chars → Nat → Option (Chars × Nat)
  | [], _ => none
  | c :: rest, pos =>
    match matchMaterialAt (c :: rest) with
    | some m => some (m, pos + m.length)
    | none => materialSearchAux rest (pos + 1)

def materialSearch (s : Chars) : Option (Chars × Nat) := materialSearchAux s 0

/-- `strict_circle_pattern` (line 146) anchored at the head of `s`:
`([A-Z]{1,2}\d{1,2}[a-z]?|\d{1,3})`.  The greedy choices are forced, so the
match is computed directly: try one or two uppercase letters followed by
one or two digits and an optional lowercase letter, else one to three
digits. -/
def strictCircleMatchAt (s : Chars) : Option Chars :=
  match s with
  | [] => none
  | c0 :: rest0 =>
    if isUpperChar c0 then
      match rest0 with
      | [] => none
      | c1 :: rest1 =>
        if isUpperChar c1 && (match rest1 with
            | d :: _ => isDigitChar d
            | [] => false) then
          -- two letters, then 1-2 digits (greedy), then optional lowercase
          match rest1 with
          | d0 :: rest2 =>
            match rest2 with
            | d1 :: rest3 =>
              if isDigitChar d1 then
                match rest3 with
                | l :: _ => if isLowerChar l then some [c0, c1, d0, d1, l]
                            else some [c0, c1, d0, d1]
                | [] => some [c0, c1, d0, d1]
              else if isLowerChar d1 then some [c0, c1, d0, d1]
              else some [c0, c1, d0]
            | [] => some [c0, c1, d0]
          | [] => none
        else if isDigitChar c1 then
          -- one letter, then 1-2 digits (greedy), then optional lowercase
          match rest1 with
          | d1 :: rest2 =>
            if isDigitChar d1 then
              match rest2 with
              | l :: _ => if isLowerChar l then some [c0, c1, d1, l]
                          else some [c0, c1, d1]
              | [] => some [c0, c1, d1]
            else if isLowerChar d1 then some [c0, c1, d1]
            else some [c0, c1]
          | [] => some [c0, c1]
        else none
    else if isDigitChar c0 then
      some (c0 :: (rest0.takeWhile isDigitChar).take 2)
    else none

/-- `strict_circle_pattern.search`: leftmost match. -/
def strictCircleSearch : Chars → Option Chars
  | [] => none
  | c :: rest =>
    match strictCircleMatchAt (c :: rest) with
    | some m => some m
    | none => strictCircleSearch rest

/-- `strict_circle_pattern.fullmatch`: the pattern's quantifier choices are
forced when the whole string must be consumed, so a full match exists
exactly when the anchored greedy match consumes everything. -/
def strictCircleFullmatch (s : Chars) : Bool :=
  strictCircleMatchAt s = some s

end Parsers

section Cleaning

/-- Matcher for the tail of a pattern `t₁\s*t₂\s*…\s*tₙ\s*`: after each
literal token the following whitespace run is consumed (greedily, which is
forced because no token starts with whitespace). -/
def matchToksRest : List Chars → Chars → Option Chars
  | [], s => some s
  | t :: ts, s =>
    if t.isPrefixOf s then matchToksRest ts ((s.drop t.length).dropWhile isWsChar)
    else none

/-- Anchored match of `\s*t₁\s*t₂\s*…\s*tₙ\s*`, returning the remainder. -/
def matchWsToks (toks : List Chars) (s : Chars) : Option Chars :=
  matchToksRest toks (s.dropWhile isWsChar)

/-- `re.sub` for a pattern of the shape `\s*t₁\s*…\s*tₙ\s*`: leftmost,
non-overlapping, continuing after each match.  Structural recursion on a
fuel argument (the wrapper passes the input length); the length guard on
the matched remainder never fires when some token is non-empty. -/
def subWsAux (toks : List Chars) (repl : Chars) : Nat → Chars → Chars
  | 0, s => s
  | _ + 1, [] => []
  | fuel + 1, c :: rest =>
    match matchWsToks toks (c :: rest) with
    | some rem =>
      if rem.length < rest.length + 1 then repl ++ subWsAux toks repl fuel rem
      else c :: subWsAux toks repl fuel rest
    | none => c :: subWsAux toks repl fuel rest

def subWsPattern (toks : List Chars) (repl : Chars) (s : Chars) : Chars :=
  subWsAux toks repl s.length s

/-- `str.rstrip("'")`. -/
def rstripApos (s : Chars) : Chars :=
  (s.reverse.dropWhile (fun c => c = '\'')).reverse

/-- The in-loop cleaning of a matched material code (lines 157-161):
whitespace removed around `,L=`, `/`, `cm`, `Rfi`, then trailing
apostrophes stripped. -/
def cleanMaterial (m : Chars) : Chars :=
  rstripApos
    (subWsPattern [['R', 'f', 'i']] "Rfi".data
      (subWsPattern [['c', 'm']] "cm".data
        (subWsPattern [['/']] "/".data
          (subWsPattern [[','], ['L'], ['=']] ",L=".data m))))

end Cleaning

section Extraction

structure ExtractionRecord where
  circle : Chars
  material : Chars
  page : String
deriving DecidableEq, Repr

/-- `defaultdict(int)` with `counts[k] += 1`, preserving insertion order. -/
abbrev CountTable := List (Chars × Nat)

def bump (k : Chars) : CountTable → CountTable
  | [] => [(k, 1)]
  | (k', n) :: rest => if k' = k then (k', n + 1) :: rest else (k', n) :: bump k rest

def bumpBy (k : Chars) (v : Nat) : CountTable → CountTable
  | [] => [(k, v)]
  | (k', n) :: rest => if k' = k then (k', n + v) :: rest else (k', n) :: bumpBy k v rest

/-- `for code, count in page_counts.items(): counts[code] += count`. -/
def addCounts (acc pc : CountTable) : CountTable :=
  pc.foldl (fun a kv => bumpBy kv.1 kv.2 a) acc

def sumValues (c : CountTable) : Nat := (c.map Prod.snd).sum

/-- The next-line association step (lines 174-184): skip blank lines; at
the first non-blank line take its trimmed content when the whole trimmed
line fully matches the strict circle pattern, else give up. -/
def lookaheadCode (rest : List Chars) : Option Chars :=
  match rest.dropWhile (fun l => stripChars l = []) with
  | [] => none
  | nb :: _ =>
    if strictCircleFullmatch (stripChars nb) then some (stripChars nb) else none

/-- The body of the `while` loop for one stripped non-empty line (lines
154-197): search the line for a material code; on a match, associate a
circle code from the same-line remainder or the next non-blank line, and
emit one record. -/
def lineRecord (page : String) (line : Chars) (rest : List Chars) :
    Option ExtractionRecord :=
  match materialSearch line with
  | none => none
  | some (m, e) =>
    let cm := cleanMaterial m
    match strictCircleSearch (line.drop e) with
    | some c => some ⟨c, cm, page⟩
    | none =>
      match lookaheadCode rest with
      | some c => some ⟨c, cm, page⟩
      | none => some ⟨[], cm, page⟩

/-- The `while i < len(lines)` loop of `extract_all_codes` (records, in
append order). -/
def processLines (page : String) : List Chars → List ExtractionRecord
  | [] => []
  | l :: rest =>
    if stripChars l = [] then processLines page rest
    else
      match lineRecord page (stripChars l) rest with
      | none => processLines page rest
      | some r => r :: processLines page rest

/-- The `counts` dict of `extract_all_codes`: one increment per appended
record with a non-empty circle code, in record order. -/
def countsOf (rs : List ExtractionRecord) : CountTable :=
  rs.foldl (fun cs r => if r.circle = [] then cs else bump r.circle cs) []

/-- `extract_all_codes` (lines 128-199).  The `target_circle_codes`
argument is never read by the source function and is likewise unused here. -/
def extract_all_codes (text : Chars) (_targetCircleCodes : List Chars)
    (page : String) : List ExtractionRecord × CountTable :=
  let lines := splitLines (removeCR (curlyToApos text))
  let rs := processLines page lines
  (rs, countsOf rs)

end Extraction

section Validate

/-- The tail `m$` of the validator pattern: a case-insensitive `m`
followed by the end of the string, where Python's `$` also accepts a
single trailing newline. -/
def pEndM (s : Chars) : Bool :=
  match s with
  | m :: s11 => charCiEq m 'm' && (s11 = [] || s11 = ['\n'])
  | [] => false

/-- `validate_material_code` (lines 215-225):
`re.match("^\d+Rfi\d+/\d+cm,L=\d+\.?\d*m$", s, VERBOSE | IGNORECASE)`. -/
def validate_material_code (s : Chars) : Bool :=
  match pDigits s with
  | none => false
  | some (_, s1) =>
  match pCi ['r', 'f', 'i'] s1 with
  | none => false
  | some (_, s2) =>
  match pDigits s2 with
  | none => false
  | some (_, s3) =>
  match pChar '/' s3 with
  | none => false
  | some s4 =>
  match pDigits s4 with
  | none => false
  | some (_, s5) =>
  match pCi ['c', 'm'] s5 with
  | none => false
  | some (_, s6) =>
  match pChar ',' s6 with
  | none => false
  | some s7 =>
  match pCi ['l', '='] s7 with
  | none => false
  | some (_, s8) =>
  match pDigits s8 with
  | none => false
  | some (_, s9) =>
  match pChar '.' s9 with
  | some t => pEndM (t.dropWhile isDigitChar)
  | none => pEndM s9

end Validate

section Document

/-- Maximal runs of regex word characters (`\w`) in a text; the
word-boundary anchors of `\b([A-Za-z0-9]{1,5})\b` make a match possible
only for such a whole run. -/
def wordRunsAux : Nat → Chars → List Chars
  | 0, _ => []
  | _ + 1, [] => []
  | fuel + 1, c :: rest =>
    if isWordChar c then
      (c :: rest.takeWhile isWordChar) :: wordRunsAux fuel (rest.dropWhile isWordChar)
    else wordRunsAux fuel rest

def wordRuns (s : Chars) : List Chars := wordRunsAux s.length s

/-- The first pass of `extract_all_codes_from_pdf` (lines 350-353):
all 1-5 character alphanumeric word-bounded tokens, uppercased, with the
literal token `0` excluded; modelled as a deduplicated list standing for
the Python set. -/
def genericCircleCodes (t : Chars) : List Chars :=
  (((wordRuns t).filter
      (fun r => r.all isAlnumChar && r.length ≤ 5 && r ≠ ['0'])).map
    (fun r => r.map Char.toUpper)).dedup

/-- Per-page accumulation loop shared by the extraction drivers: apply `f`
to each page's text (identity for native text, `clean_ocr_text` for OCR
text), run `extract_all_codes`, extend results and merge counts.  Pages
are numbered from 1. -/
def runPagesAux (f : Chars → Chars) :
    List Chars → Nat → List ExtractionRecord × CountTable →
    List ExtractionRecord × CountTable
  | [], _, acc => acc
  | t :: ts, n, (rs, cs) =>
    let (pr, pc) := extract_all_codes (f t) [] (toString n)
    runPagesAux f ts (n + 1) (rs ++ pr, addCounts cs pc)

def runPages (f : Chars → Chars) (pages : List Chars) :
    List ExtractionRecord × CountTable :=
  runPagesAux f pages 1 ([], [])

/-- One native-text page as processed by `extract_all_codes_from_pdf`
(lines 360-366): the page text goes straight to `extract_all_codes`. -/
def nativePageExtract (t : Chars) (page : String) :
    List ExtractionRecord × CountTable :=
  extract_all_codes t [] page

/-- One OCR page as processed by `extract_all_codes_from_pdf`
(lines 380-384): the recognized text is first passed through
`clean_ocr_text`, then to `extract_all_codes`. -/
def ocrPageExtract (t : Chars) (page : String) :
    List ExtractionRecord × CountTable :=
  extract_all_codes (clean_ocr_text t) [] page

structure PdfOutcome where
  records : List ExtractionRecord
  counts : CountTable
  ocrInvoked : Bool
deriving DecidableEq, Repr

/-- `extract_all_codes_from_pdf` (lines 342-389).  The native text source
is `some pages` on success and `none` when the document reader raises (the
exception is caught and control falls through to the OCR fallback);
`ocrTexts` are the page texts the OCR collaborator would produce.  The
`ocrInvoked` flag records whether the fallback ran. -/
def extract_all_codes_from_pdf (native : Option (List Chars))
    (ocrTexts : List Chars) : PdfOutcome :=
  match native with
  | none =>
    ⟨(runPages clean_ocr_text ocrTexts).1, (runPages clean_ocr_text ocrTexts).2, true⟩
  | some pages =>
    if genericCircleCodes (List.intercalate ['\n'] pages) = [] then ⟨[], [], false⟩
    else if (runPages id pages).1 = [] then
      ⟨(runPages clean_ocr_text ocrTexts).1, (runPages clean_ocr_text ocrTexts).2, true⟩
    else ⟨(runPages id pages).1, (runPages id pages).2, false⟩

/-- `extract_materials` (lines 98-126): try native text (a failure of the
reader is caught, leaving no records); fall back to OCR — whose page texts
are *not* passed through `clean_ocr_text` in this driver — exactly when no
native record was accumulated. -/
def extract_materials (native : Option (List Chars)) (ocrTexts : List Chars) :
    PdfOutcome :=
  match native with
  | none =>
    -- the native reader raised before accumulating anything, so the
    -- record list is empty and the fallback runs
    ⟨(runPages id ocrTexts).1, (runPages id ocrTexts).2, true⟩
  | some pages =>
    if (runPages id pages).1 = [] then
      ⟨(runPages id ocrTexts).1, (runPages id ocrTexts).2, true⟩
    else ⟨(runPages id pages).1, (runPages id pages).2, false⟩

end Document

section CharFacts

theorem char_eq_of_toNat {a b : Char} (h : a.toNat = b.toNat) : a = b :=
  Char.ext (UInt32.toNat.inj h)

theorem isUpperChar_lower_bound {a : Char} (h : isUpperChar a = true) :
    65 ≤ a.toNat := by
  simp only [isUpperChar, Bool.and_eq_true, decide_eq_true_eq] at h
  have h1 := h.1
  rw [Char.le_def, UInt32.le_def, BitVec.le_def] at h1
  exact h1

/-- Inverting a case-insensitive character match when the pattern
character is a lowercase letter with uppercase partner `up`. -/
theorem charCiEq_elim {a b up : Char} (h : charCiEq a b = true)
    (hup : up.toNat + 32 = b.toNat) : a = b ∨ a = up := by
  simp only [charCiEq, Bool.or_eq_true, Bool.and_eq_true, decide_eq_true_eq] at h
  rcases h with h | ⟨_, h⟩
  · exact Or.inl h
  · exact Or.inr (char_eq_of_toNat (by omega))

/-- Inverting a case-insensitive character match when the pattern
character has no uppercase partner (its code is below the letters). -/
theorem charCiEq_elim_noletter {a b : Char} (h : charCiEq a b = true)
    (hb : b.toNat < 97) : a = b := by
  simp only [charCiEq, Bool.or_eq_true, Bool.and_eq_true, decide_eq_true_eq] at h
  rcases h with h | ⟨hu, h⟩
  · exact h
  · have := isUpperChar_lower_bound hu
    omega

end CharFacts

section ListHelpers

theorem map_eq_self_of {f : Char → Char} {s : Chars} (h : ∀ c ∈ s, f c = c) :
    s.map f = s := by
  induction s with
  | nil => rfl
  | cons a t ih =>
    simp only [List.map_cons, h a (List.mem_cons_self a t)]
    rw [ih (fun c hc => h c (List.mem_cons_of_mem a hc))]

theorem dropWhile_head_false {p : Char → Bool} {s : Chars} {c : Char} {t : Chars}
    (h : s.dropWhile p = c :: t) : p c = false := by
  induction s with
  | nil => simp [List.dropWhile] at h
  | cons a u ih =>
    by_cases ha : p a
    · rw [List.dropWhile_cons_of_pos ha] at h
      exact ih h
    · rw [List.dropWhile_cons_of_neg ha] at h
      cases h
      simpa using ha

theorem dropWhile_dropWhile (p : Char → Bool) (s : Chars) :
    (s.dropWhile p).dropWhile p = s.dropWhile p := by
  cases hd : s.dropWhile p with
  | nil => rfl
  | cons c t =>
    rw [List.dropWhile_cons_of_neg]
    rw [dropWhile_head_false hd]
    simp

end ListHelpers

section ReplaceLemmas

theorem mem_replaceListAux {c : Char} {pat repl : Chars} :
    ∀ {fuel : Nat} {s : Chars},
      c ∈ replaceListAux pat repl fuel s → c ∈ s ∨ c ∈ repl := by
  intro fuel
  induction fuel with
  | zero => intro s h; exact Or.inl h
  | succ f ih =>
    intro s h
    cases s with
    | nil => simp [replaceListAux] at h
    | cons c' rest =>
      by_cases hp : pat ≠ [] ∧ pat.isPrefixOf (c' :: rest)
      · rw [replaceListAux, if_pos hp] at h
        rcases List.mem_append.mp h with h | h
        · exact Or.inr h
        · rcases ih h with h | h
          · exact Or.inl ((List.drop_sublist _ _).mem h)
          · exact Or.inr h
      · rw [replaceListAux, if_neg hp] at h
        rcases List.mem_cons.mp h with h | h
        · exact Or.inl (h ▸ List.mem_cons_self _ _)
        · rcases ih h with h | h
          · exact Or.inl (List.mem_cons_of_mem _ h)
          · exact Or.inr h

theorem mem_replaceList {c : Char} {pat repl s : Chars}
    (h : c ∈ replaceList pat repl s) : c ∈ s ∨ c ∈ repl :=
  mem_replaceListAux h

theorem mem_foldl_replace {c : Char} :
    ∀ (prs : List (Chars × Chars)) (s : Chars),
      c ∈ prs.foldl (fun t pr => replaceList pr.1 pr.2 t) s →
      c ∈ s ∨ ∃ pr ∈ prs, c ∈ pr.2 := by
  intro prs
  induction prs with
  | nil => intro s h; exact Or.inl h
  | cons pr rest ih =>
    intro s h
    rw [List.foldl_cons] at h
    rcases ih _ h with h | ⟨pr', hpr', hc⟩
    · rcases mem_replaceList h with h | h
      · exact Or.inl h
      · exact Or.inr ⟨pr, List.mem_cons_self _ _, h⟩
    · exact Or.inr ⟨pr', List.mem_cons_of_mem _ hpr', hc⟩

/-- Characters introduced by the OCR substitution table. -/
theorem mem_applyReplacements {c : Char} {s : Chars}
    (h : c ∈ applyReplacements s) :
    c ∈ s ∨ c ∈ ['f', 'i', 'l', '.', 'c', 'm', 'L', '=', ',', '\''] := by
  rcases mem_foldl_replace _ _ h with h | ⟨pr, hpr, hc⟩
  · exact Or.inl h
  · right
    have hsub : ∀ x ∈ pr.2, x ∈ ['f', 'i', 'l', '.', 'c', 'm', 'L', '=', ',', '\''] := by
      simp only [ocrReplacements, List.mem_cons, List.not_mem_nil, or_false] at hpr
      rcases hpr with h' | h' | h' | h' | h' | h' | h' | h' | h' | h' | h' <;>
        rw [h'] <;> decide
    exact hsub c hc

end ReplaceLemmas

section WhitespaceLemmas

theorem mem_stripNoise {c : Char} {s : Chars} (h : c ∈ stripNoise s) :
    c ∈ s ∧ c ∉ noiseChars := by
  have := List.mem_filter.mp h
  exact ⟨this.1, of_decide_eq_true this.2⟩

theorem stripNoise_eq_self {s : Chars} (h : ∀ c ∈ s, c ∉ noiseChars) :
    stripNoise s = s :=
  List.filter_eq_self.mpr (fun c hc => decide_eq_true (h c hc))

theorem collapseWsAux_nil (fuel : Nat) : collapseWsAux fuel [] = [] := by
  cases fuel <;> rfl

theorem mem_collapseWsAux {c : Char} :
    ∀ {fuel : Nat} {s : Chars}, c ∈ collapseWsAux fuel s → c ∈ s ∨ c = ' ' := by
  intro fuel
  induction fuel with
  | zero => intro s h; exact Or.inl h
  | succ f ih =>
    intro s h
    cases s with
    | nil => simp [collapseWsAux] at h
    | cons c' rest =>
      by_cases hws : isWsChar c' = true
      · rw [collapseWsAux, if_pos hws] at h
        rcases List.mem_cons.mp h with h | h
        · exact Or.inr h
        · rcases ih h with h | h
          · exact Or.inl
              (List.mem_cons_of_mem _ ((List.dropWhile_sublist _).mem h))
          · exact Or.inr h
      · rw [collapseWsAux, if_neg hws] at h
        rcases List.mem_cons.mp h with h | h
        · exact Or.inl (h ▸ List.mem_cons_self _ _)
        · rcases ih h with h | h
          · exact Or.inl (List.mem_cons_of_mem _ h)
          · exact Or.inr h

theorem mem_collapseWs {c : Char} {s : Chars} (h : c ∈ collapseWs s) :
    c ∈ s ∨ c = ' ' :=
  mem_collapseWsAux h

theorem collapseWsAux_ws_space {c : Char} :
    ∀ {fuel : Nat} {s : Chars}, s.length ≤ fuel → c ∈ collapseWsAux fuel s →
      isWsChar c = true → c = ' ' := by
  intro fuel
  induction fuel with
  | zero =>
    intro s hl h _
    have : s = [] := List.eq_nil_of_length_eq_zero (Nat.le_zero.mp hl)
    subst this
    simp [collapseWsAux_nil] at h
  | succ f ih =>
    intro s hl h hws
    cases s with
    | nil => simp [collapseWsAux] at h
    | cons c' rest =>
      have hl' : rest.length ≤ f := by
        simp only [List.length_cons] at hl
        omega
      by_cases hws' : isWsChar c' = true
      · rw [collapseWsAux, if_pos hws'] at h
        rcases List.mem_cons.mp h with h | h
        · exact h
        · exact ih (Nat.le_trans (length_dropWhile_le _ _) hl') h hws
      · rw [collapseWsAux, if_neg hws'] at h
        rcases List.mem_cons.mp h with h | h
        · exact absurd (h ▸ hws) hws'
        · exact ih hl' h hws

/-- Every whitespace character surviving `collapseWs` is a plain space. -/
theorem collapseWs_ws_space {c : Char} {s : Chars} (h : c ∈ collapseWs s)
    (hws : isWsChar c = true) : c = ' ' :=
  collapseWsAux_ws_space (Nat.le_refl _) h hws

/-- No two adjacent whitespace characters. -/
def noTwoWs : Chars → Prop
  | [] => True
  | [_] => True
  | a :: b :: t => ¬(isWsChar a = true ∧ isWsChar b = true) ∧ noTwoWs (b :: t)

theorem noTwoWs_tail {a : Char} {t : Chars} (h : noTwoWs (a :: t)) : noTwoWs t := by
  cases t with
  | nil => trivial
  | cons b u => exact h.2

theorem collapseWsAux_cons_of_neg {d : Char} {t : Chars} {f : Nat}
    (h : isWsChar d = false) :
    collapseWsAux (f + 1) (d :: t) = d :: collapseWsAux f t := by
  rw [collapseWsAux, if_neg (by simp [h])]

theorem noTwoWs_collapseWsAux :
    ∀ {fuel : Nat} {s : Chars}, s.length ≤ fuel →
      noTwoWs (collapseWsAux fuel s) := by
  intro fuel
  induction fuel with
  | zero =>
    intro s hl
    have : s = [] := List.eq_nil_of_length_eq_zero (Nat.le_zero.mp hl)
    subst this
    rw [collapseWsAux_nil]
    trivial
  | succ f ih =>
    intro s hl
    cases s with
    | nil => rw [collapseWsAux_nil]; trivial
    | cons c rest =>
      have hl' : rest.length ≤ f := by
        simp only [List.length_cons] at hl
        omega
      by_cases hws : isWsChar c = true
      · rw [collapseWsAux, if_pos hws]
        have hih := ih (Nat.le_trans (length_dropWhile_le isWsChar rest) hl')
        cases hd : rest.dropWhile isWsChar with
        | nil =>
          rw [collapseWsAux_nil]
          trivial
        | cons d t =>
          have hdws : isWsChar d = false := dropWhile_head_false hd
          rw [hd] at hih
          have hf : ∃ g, f = g + 1 := by
            have := length_dropWhile_le isWsChar rest
            rw [hd] at this
            simp only [List.length_cons] at this
            exact ⟨f - 1, by omega⟩
          obtain ⟨g, rfl⟩ := hf
          rw [collapseWsAux_cons_of_neg hdws] at hih ⊢
          exact ⟨fun hc => by rw [hdws] at hc; exact absurd hc.2 (by simp), hih⟩
      · rw [collapseWsAux, if_neg hws]
        have hih := ih hl'
        cases hc' : collapseWsAux f rest with
        | nil => trivial
        | cons d t =>
          rw [hc'] at hih
          exact ⟨fun hc => hws hc.1, hih⟩

theorem noTwoWs_collapseWs (s : Chars) : noTwoWs (collapseWs s) :=
  noTwoWs_collapseWsAux (Nat.le_refl _)

theorem noTwoWs_dropWhile {p : Char → Bool} {s : Chars} (h : noTwoWs s) :
    noTwoWs (s.dropWhile p) := by
  induction s with
  | nil => trivial
  | cons a t ih =>
    by_cases ha : p a
    · rw [List.dropWhile_cons_of_pos ha]
      exact ih (noTwoWs_tail h)
    · rw [List.dropWhile_cons_of_neg ha]
      exact h

theorem rstripWs_structure (c : Char) (t : Chars) :
    rstripWs (c :: t) = [] ∨ rstripWs (c :: t) = c :: rstripWs t := by
  rw [rstripWs]
  by_cases h : rstripWs t = [] ∧ isWsChar c = true
  · exact Or.inl (by simp [h])
  · exact Or.inr (by simp [h])

theorem mem_rstripWs {c : Char} : ∀ {s : Chars}, c ∈ rstripWs s → c ∈ s := by
  intro s
  induction s with
  | nil => intro h; simp [rstripWs] at h
  | cons a t ih =>
    intro h
    rcases rstripWs_structure a t with hs | hs <;> rw [hs] at h
    · cases h
    · rcases List.mem_cons.mp h with h | h
      · exact h ▸ List.mem_cons_self _ _
      · exact List.mem_cons_of_mem _ (ih h)

theorem noTwoWs_rstripWs {s : Chars} (h : noTwoWs s) : noTwoWs (rstripWs s) := by
  induction s with
  | nil => trivial
  | cons a t ih =>
    rcases rstripWs_structure a t with hs | hs <;> rw [hs]
    · trivial
    · cases t with
      | nil => simp [rstripWs]; trivial
      | cons b u =>
        rcases rstripWs_structure b u with hs' | hs' <;> rw [hs']
        · trivial
        · exact ⟨h.1, by rw [← hs']; exact ih (noTwoWs_tail h)⟩

theorem rstripWs_idem (s : Chars) : rstripWs (rstripWs s) = rstripWs s := by
  induction s with
  | nil => rfl
  | cons a t ih =>
    rcases rstripWs_structure a t with hs | hs <;> rw [hs]
    · rfl
    · rw [rstripWs, ih]
      by_cases h : rstripWs t = [] ∧ isWsChar a = true

      · -- then `rstripWs (a :: t)` would have been `[]`, contradicting `hs`
        rw [rstripWs, if_pos (by simp [h])] at hs
        cases hs
      · simp [h]

theorem stripChars_idem (s : Chars) : stripChars (stripChars s) = stripChars s := by
  unfold stripChars
  have hdw : (rstripWs (s.dropWhile isWsChar)).dropWhile isWsChar
      = rstripWs (s.dropWhile isWsChar) := by
    cases hu : s.dropWhile isWsChar with
    | nil => simp [rstripWs]
    | cons c t =>
      rcases rstripWs_structure c t with hs | hs <;> rw [hs]
      · rfl
      · exact List.dropWhile_cons_of_neg (by simp [dropWhile_head_false hu])
  rw [hdw, rstripWs_idem]

theorem mem_stripChars {c : Char} {s : Chars} (h : c ∈ stripChars s) : c ∈ s :=
  (List.dropWhile_sublist _).mem (mem_rstripWs h)

/-- `collapseWs` fixes lists whose whitespace is single spaces with no two
adjacent. -/
theorem collapseWsAux_fix :
    ∀ {fuel : Nat} {u : Chars}, u.length ≤ fuel →
      (∀ c ∈ u, isWsChar c = true → c = ' ') → noTwoWs u →
      collapseWsAux fuel u = u := by
  intro fuel
  induction fuel with
  | zero => intro u _ _ _; rfl
  | succ f ih =>
    intro u hl hsp hnt
    cases u with
    | nil => rw [collapseWsAux_nil]
    | cons c rest =>
      have hl' : rest.length ≤ f := by
        simp only [List.length_cons] at hl
        omega
      by_cases hws : isWsChar c = true
      · have hdrop : rest.dropWhile isWsChar = rest := by
          cases rest with
          | nil => rfl
          | cons d t =>
            have hd : isWsChar d = false := by
              by_contra hd
              simp only [Bool.not_eq_false] at hd
              exact hnt.1 ⟨hws, hd⟩
            exact List.dropWhile_cons_of_neg (by simp [hd])
        rw [collapseWsAux, if_pos hws, hdrop]
        have hc : c = ' ' := hsp c (List.mem_cons_self _ _) hws
        rw [ih hl' (fun x hx => hsp x (List.mem_cons_of_mem _ hx))
          (noTwoWs_tail hnt), hc]
      · rw [collapseWsAux, if_neg hws]
        rw [ih hl' (fun x hx => hsp x (List.mem_cons_of_mem _ hx))
          (noTwoWs_tail hnt)]

theorem collapseWs_fix {u : Chars}
    (hsp : ∀ c ∈ u, isWsChar c = true → c = ' ') (hnt : noTwoWs u) :
    collapseWs u = u :=
  collapseWsAux_fix (Nat.le_refl _) hsp hnt

/-- Collapsing and trimming whitespace is idempotent as a pipeline. -/
theorem stripCollapse_idem (z : Chars) :
    stripChars (collapseWs (stripChars (collapseWs z)))
      = stripChars (collapseWs z) := by
  have hsp : ∀ c ∈ stripChars (collapseWs z), isWsChar c = true → c = ' ' :=
    fun c hc hws => collapseWs_ws_space (mem_stripChars hc) hws
  have hnt : noTwoWs (stripChars (collapseWs z)) :=
    noTwoWs_rstripWs (noTwoWs_dropWhile (noTwoWs_collapseWs z))
  rw [collapseWs_fix hsp hnt, stripChars_idem]

end WhitespaceLemmas

section NormalizeFacts

theorem curlyToApos_no_curly {c : Char} {s : Chars} (h : c ∈ curlyToApos s) :
    c ≠ '’' := by
  rcases List.mem_map.mp h with ⟨a, _, ha⟩
  by_cases hc : a = '’' || a = '\''
  · simp only [curlyToApos, hc, if_true] at ha
    rw [← ha]; decide
  · simp only [curlyToApos, hc, if_false] at ha
    simp only [Bool.or_eq_true, decide_eq_true_eq, not_or] at hc
    exact ha ▸ hc.1

theorem mem_removeCR {c : Char} {s : Chars} (h : c ∈ removeCR s) :
    c ∈ s ∧ c ≠ '\r' := by
  have := List.mem_filter.mp h
  exact ⟨this.1, by simpa using this.2⟩

/-- Character-level facts about the output of `normalize`: no curly or
straight apostrophe, no carriage return, no noise character survives. -/
theorem normalize_chars {c : Char} {s : Chars} (h : c ∈ normalize s) :
    c ∉ noiseChars ∧ c ≠ '’' ∧ c ≠ '\r' := by
  unfold normalize at h
  have h1 := mem_collapseWs (mem_stripChars h)
  rcases h1 with h1 | h1
  · have h2 := mem_stripNoise h1
    refine ⟨h2.2, ?_, ?_⟩
    · -- c comes from the substitution table output over CR-free,
      -- curly-free text, and no table entry introduces a curly quote
      rcases mem_applyReplacements ((List.filter_sublist _).mem h1) with h3 | h3
      · exact curlyToApos_no_curly (mem_removeCR h3).1
      · intro hc; rw [hc] at h3; simp at h3
    · rcases mem_applyReplacements ((List.filter_sublist _).mem h1) with h3 | h3
      · exact (mem_removeCR h3).2
      · intro hc; rw [hc] at h3; simp at h3
  · subst h1
    refine ⟨by decide, by decide, by decide⟩

theorem clean_ocr_text_chars {c : Char} {s : Chars} (h : c ∈ clean_ocr_text s) :
    c ∉ noiseChars := by
  unfold clean_ocr_text at h
  rcases mem_collapseWs (mem_stripChars h) with h1 | h1
  · exact (mem_stripNoise h1).2
  · subst h1; decide

end NormalizeFacts

section ClaimC7

/-- C7 counterexample: on the page text `5Rfi12/8em,L=3.5m` the native
path (no `clean_ocr_text`) extracts nothing, while the OCR path first
rewrites `em` to `cm` and then extracts a record — the two paths are not
the identical pipeline. -/
theorem c7_counterexample :
    nativePageExtract "5Rfi12/8em,L=3.5m".data "1"
      ≠ ocrPageExtract "5Rfi12/8em,L=3.5m".data "1"
    ∧ (nativePageExtract "5Rfi12/8em,L=3.5m".data "1").1 = []
    ∧ (ocrPageExtract "5Rfi12/8em,L=3.5m".data "1").1
        = [⟨[], "5Rfi12/8cm,L=3.5m".data, "1"⟩] := by
  refine ⟨by decide, by decide, by decide⟩

/-- C7 amended: the OCR per-page path equals the native per-page path
precomposed with `clean_ocr_text`; consequently the two paths produce the
same records and counts exactly on texts that `clean_ocr_text` leaves
unchanged, rather than on every text. -/
theorem c7_pipeline_agreement :
    (∀ (t : Chars) (page : String),
        ocrPageExtract t page = nativePageExtract (clean_ocr_text t) page)
  ∧ (∀ (t : Chars) (page : String), clean_ocr_text t = t →
        ocrPageExtract t page = nativePageExtract t page) := by
  constructor
  · intro t page
    rfl
  · intro t page h
    show extract_all_codes (clean_ocr_text t) [] page = extract_all_codes t [] page
    rw [h]

theorem c7_pipeline_agreement_witness :
    clean_ocr_text "5Rfi12/8cm,L=3.5m T1".data = "5Rfi12/8cm,L=3.5m T1".data
  ∧ ocrPageExtract "5Rfi12/8cm,L=3.5m T1".data "2"
      = nativePageExtract "5Rfi12/8cm,L=3.5m T1".data "2" :=
  ⟨by decide, c7_pipeline_agreement.2 "5Rfi12/8cm,L=3.5m T1".data "2" (by decide)⟩

end ClaimC7

section ClaimC8

/-- C8 counterexample: the apostrophe trailing the length suffix `m` is
*not* preserved by normalization — the substitution table maps `m'` to `m`
and the noise strip removes every remaining apostrophe. -/
theorem c8_counterexample :
    clean_ocr_text "L=3.5m'".data = "L=3.5m".data
    ∧ '\'' ∉ clean_ocr_text "L=3.5m'".data
    ∧ '\'' ∉ normalize "L=3.5m'".data := by
  refine ⟨by decide, by decide, by decide⟩

/-- C8 amended: no apostrophe at all survives `clean_ocr_text` — the noise
set `| ! " ' ; ~ _` (which contains the apostrophe) is removed wholesale,
after the substitution table has already deleted apostrophes following
`m`. -/
theorem c8_no_noise_survives (s : Chars) (c : Char)
    (h : c ∈ clean_ocr_text s) :
    c ∉ ['|', '!', '"', '\'', ';', '~', '_'] :=
  clean_ocr_text_chars h

theorem c8_no_noise_survives_witness :
    'a' ∈ clean_ocr_text "a'b".data
  ∧ 'a' ∉ ['|', '!', '"', '\'', ';', '~', '_'] :=
  ⟨by decide, c8_no_noise_survives "a'b".data 'a' (by decide)⟩

end ClaimC8

section ClaimC4

/-- C4 counterexample: `normalize` is not idempotent.  The substitution
table's `.. → .` entry is applied once left-to-right, so `...` normalizes
to `..`, which a second normalization pass reduces further to `.`. -/
theorem c4_counterexample :
    normalize "...".data = "..".data
    ∧ normalize (normalize "...".data) = ".".data
    ∧ normalize (normalize "...".data) ≠ normalize "...".data := by
  refine ⟨by decide, by decide, by decide⟩

/-- C4 amended: `normalize` is idempotent exactly on the inputs whose
normal form the substitution table no longer rewrites; full idempotence
fails because the table is applied once left-to-right, not to a fixpoint. -/
theorem c4_conditional_idempotent (s : Chars)
    (h : applyReplacements (normalize s) = normalize s) :
    normalize (normalize s) = normalize s := by
  have hcurly : curlyToApos (normalize s) = normalize s := by
    apply map_eq_self_of
    intro c hc
    have hf := normalize_chars hc
    have h1 : c ≠ '’' := hf.2.1
    have h2 : c ≠ '\'' := by
      intro hc'
      exact hf.1 (by rw [hc']; decide)
    simp [h1, h2]
  have hcr : removeCR (normalize s) = normalize s := by
    apply List.filter_eq_self.mpr
    intro c hc
    simpa using (normalize_chars hc).2.2
  have hnoise : stripNoise (normalize s) = normalize s :=
    stripNoise_eq_self (fun c hc => (normalize_chars hc).1)
  conv_lhs => rw [normalize, hcurly, hcr, h, hnoise]
  rw [normalize]
  exact stripCollapse_idem _

theorem c4_conditional_idempotent_witness :
    applyReplacements (normalize "ab cd".data) = normalize "ab cd".data
  ∧ normalize (normalize "ab cd".data) = normalize "ab cd".data :=
  ⟨by decide, c4_conditional_idempotent "ab cd".data (by decide)⟩

end ClaimC4

section ClaimC1

/-- C1 counterexample: a document whose only native page text is blank
yields zero native records, yet `extract_all_codes_from_pdf` returns empty
*without* invoking OCR — the document-wide circle-code scan finds no codes
and returns early — even though the OCR page text would have produced a
record. -/
theorem c1_counterexample :
    (runPages id [" ".data]).1 = []
    ∧ extract_all_codes_from_pdf (some [" ".data]) ["5Rfi12/8cm T1".data]
        = ⟨[], [], false⟩
    ∧ (runPages clean_ocr_text ["5Rfi12/8cm T1".data]).1 ≠ [] := by
  refine ⟨by decide, by decide, by decide⟩

/-- C1 amended: in `extract_all_codes_from_pdf`, OCR is invoked exactly
when the native reader fails, or when the document-wide generic
circle-code scan finds at least one code and the native pass still yields
zero records; when the scan finds no circle codes the function returns an
empty result without invoking OCR.  The returned records are wholly those
of one pass (native and OCR results are never merged).  In
`extract_materials`, OCR is invoked exactly when the native pass (or its
failure) yields zero accumulated records. -/
theorem c1_amended_fallback_policy (pages ocrTexts : List Chars) :
    ((extract_all_codes_from_pdf none ocrTexts).ocrInvoked = true
      ∧ (extract_all_codes_from_pdf none ocrTexts).records
          = (runPages clean_ocr_text ocrTexts).1)
  ∧ (genericCircleCodes (List.intercalate ['\n'] pages) = [] →
      extract_all_codes_from_pdf (some pages) ocrTexts
        = ⟨[], [], false⟩)
  ∧ (genericCircleCodes (List.intercalate ['\n'] pages) ≠ [] →
      (runPages id pages).1 = [] →
      (extract_all_codes_from_pdf (some pages) ocrTexts).ocrInvoked = true
      ∧ (extract_all_codes_from_pdf (some pages) ocrTexts).records
          = (runPages clean_ocr_text ocrTexts).1)
  ∧ (genericCircleCodes (List.intercalate ['\n'] pages) ≠ [] →
      (runPages id pages).1 ≠ [] →
      (extract_all_codes_from_pdf (some pages) ocrTexts).ocrInvoked = false
      ∧ (extract_all_codes_from_pdf (some pages) ocrTexts).records
          = (runPages id pages).1)
  ∧ ((extract_materials none ocrTexts).ocrInvoked = true)
  ∧ ((extract_materials (some pages) ocrTexts).ocrInvoked = true
      ↔ (runPages id pages).1 = []) := by
  refine ⟨⟨rfl, rfl⟩, ?_, ?_, ?_, rfl, ?_⟩
  · intro h
    simp [extract_all_codes_from_pdf, h]
  · intro h1 h2
    simp [extract_all_codes_from_pdf, h1, h2]
  · intro h1 h2
    simp [extract_all_codes_from_pdf, h1, h2]
  · by_cases h : (runPages id pages).1 = [] <;> simp [extract_materials, h]

theorem c1_amended_fallback_policy_witness :
    genericCircleCodes (List.intercalate ['\n'] ["T1".data]) ≠ []
  ∧ (runPages id ["T1".data]).1 = []
  ∧ (extract_all_codes_from_pdf (some ["T1".data])
      ["5Rfi12/8cm T1".data]).ocrInvoked = true :=
  ⟨by decide, by decide,
    ((c1_amended_fallback_policy ["T1".data] ["5Rfi12/8cm T1".data]).2.2.1
      (by decide) (by decide)).1⟩

end ClaimC1

section StrictCircleLemmas

theorem char_toNat_le_of_le {a b : Char} (h : a ≤ b) : a.toNat ≤ b.toNat := by
  rw [Char.le_def, UInt32.le_def, BitVec.le_def] at h
  exact h

theorem isDigitChar_bounds {c : Char} (h : isDigitChar c = true) :
    48 ≤ c.toNat ∧ c.toNat ≤ 57 := by
  simp only [isDigitChar, Bool.and_eq_true, decide_eq_true_eq] at h
  exact ⟨char_toNat_le_of_le h.1, char_toNat_le_of_le h.2⟩

theorem isUpperChar_of_digit {c : Char} (h : isDigitChar c = true) :
    isUpperChar c = false := by
  by_contra hu
  simp only [Bool.not_eq_false] at hu
  have h1 := isDigitChar_bounds h
  have h2 := isUpperChar_lower_bound hu
  omega

/-- A strict-circle match is never the empty string. -/
theorem strictCircleMatchAt_ne_nil {s m : Chars}
    (h : strictCircleMatchAt s = some m) : m ≠ [] := by
  unfold strictCircleMatchAt at h
  repeat' split at h
  all_goals first
  | (injection h with h; subst h; simp)
  | (cases h)
  | simp_all

/-- The strict pattern matches at the position of any decimal digit. -/
theorem strictCircleMatchAt_digit {d : Char} {rest : Chars}
    (h : isDigitChar d = true) :
    ∃ m, strictCircleMatchAt (d :: rest) = some m := by
  refine ⟨d :: (rest.takeWhile isDigitChar).take 2, ?_⟩
  simp [strictCircleMatchAt, isUpperChar_of_digit h, h]

/-- A successful strict search has a match somewhere, and the search
result can always be produced from a digit in the searched text. -/
theorem strictCircleSearch_of_digit :
    ∀ {rt : Chars}, (∃ d ∈ rt, isDigitChar d = true) →
      ∃ c, strictCircleSearch rt = some c := by
  intro rt
  induction rt with
  | nil => intro h; simp at h
  | cons c0 rest ih =>
    intro ⟨d, hd, hdig⟩
    cases hm : strictCircleMatchAt (c0 :: rest) with
    | some m => exact ⟨m, by rw [strictCircleSearch, hm]⟩
    | none =>
      rcases List.mem_cons.mp hd with rfl | hd'
      · obtain ⟨m, hm'⟩ := strictCircleMatchAt_digit hdig
        rw [hm'] at hm
        cases hm
      · obtain ⟨c, hc⟩ := ih ⟨d, hd', hdig⟩
        exact ⟨c, by rw [strictCircleSearch, hm, hc]⟩

theorem strictCircleSearch_ne_nil :
    ∀ {rt c : Chars}, strictCircleSearch rt = some c → c ≠ [] := by
  intro rt
  induction rt with
  | nil => intro c h; simp [strictCircleSearch] at h
  | cons c0 rest ih =>
    intro c h
    rw [strictCircleSearch] at h
    cases hm : strictCircleMatchAt (c0 :: rest) with
    | some m =>
      rw [hm] at h
      cases h
      exact strictCircleMatchAt_ne_nil hm
    | none =>
      rw [hm] at h
      exact ih h

/-- The strict search returns the match at the least offset: no earlier
position matches. -/
theorem strictCircleSearch_leftmost :
    ∀ {rt c : Chars}, strictCircleSearch rt = some c →
      ∃ i, strictCircleMatchAt (rt.drop i) = some c
        ∧ ∀ j < i, strictCircleMatchAt (rt.drop j) = none := by
  intro rt
  induction rt with
  | nil => intro c h; simp [strictCircleSearch] at h
  | cons c0 rest ih =>
    intro c h
    rw [strictCircleSearch] at h
    cases hm : strictCircleMatchAt (c0 :: rest) with
    | some m =>
      rw [hm] at h
      cases h
      exact ⟨0, hm, fun j hj => absurd hj (Nat.not_lt_zero j)⟩
    | none =>
      rw [hm] at h
      obtain ⟨i, hi, hlt⟩ := ih h
      refine ⟨i + 1, by simpa using hi, fun j hj => ?_⟩
      cases j with
      | zero => simpa using hm
      | succ j' =>
        have := hlt j' (Nat.lt_of_succ_lt_succ hj)
        simpa using this

end StrictCircleLemmas

section ClaimC2

/-- C2: when the same-line remainder after a material match contains a
strict-circle match, that line contributes exactly one record whose circle
code is the leftmost strict match of the remainder, independently of all
subsequent lines; and the line `5Rfi12/8cm,L=3.5m' T1` yields the record
`(T1, 5Rfi12/8cm,L=3.5m, page)`. -/
theorem c2_same_line_association :
    (∀ (page : String) (l : Chars) (rest rest' : List Chars) (m : Chars)
        (e : Nat) (c : Chars),
      materialSearch (stripChars l) = some (m, e) →
      strictCircleSearch ((stripChars l).drop e) = some c →
      processLines page (l :: rest)
        = ⟨c, cleanMaterial m, page⟩ :: processLines page rest
      ∧ lineRecord page (stripChars l) rest
          = lineRecord page (stripChars l) rest')
  ∧ (∀ (rt c : Chars), strictCircleSearch rt = some c →
      ∃ i, strictCircleMatchAt (rt.drop i) = some c
        ∧ ∀ j < i, strictCircleMatchAt (rt.drop j) = none)
  ∧ extract_all_codes "5Rfi12/8cm,L=3.5m' T1".data [] "1"
      = ([⟨"T1".data, "5Rfi12/8cm,L=3.5m".data, "1"⟩], [("T1".data, 1)]) := by
  refine ⟨?_, fun rt c h => strictCircleSearch_leftmost h, by decide⟩
  intro page l rest rest' m e c hmat hstrict
  have hne : ¬ stripChars l = [] := by
    intro h
    rw [h] at hmat
    simp [materialSearch, materialSearchAux] at hmat
  constructor
  · rw [processLines, if_neg hne]
    simp only [lineRecord, hmat, hstrict]
  · simp only [lineRecord, hmat, hstrict]

theorem c2_same_line_association_witness :
    materialSearch (stripChars "5Rfi12/8cm,L=3.5m' T1".data)
      = some ("5Rfi12/8cm,L=3.5m'".data, 18)
  ∧ processLines "1" ["5Rfi12/8cm,L=3.5m' T1".data]
      = [⟨"T1".data, "5Rfi12/8cm,L=3.5m".data, "1"⟩] := by
  refine ⟨by decide, ?_⟩
  have h := (c2_same_line_association.1 "1" "5Rfi12/8cm,L=3.5m' T1".data [] []
    "5Rfi12/8cm,L=3.5m'".data 18 "T1".data (by decide) (by decide)).1
  rw [h]
  decide

end ClaimC2

section ClaimC10

/-- C10: the strict circle pattern has no word-boundary anchors, so
whenever the same-line remainder after a material match contains any
decimal digit the association always succeeds with a non-empty circle
code — even when that digit is embedded in an unrelated token, such as the
leading digit of a second material code on the same line. -/
theorem c10_digit_always_associates :
    (∀ rt : Chars, (∃ d ∈ rt, isDigitChar d = true) →
      ∃ c, strictCircleSearch rt = some c ∧ c ≠ [])
  ∧ (∀ (page : String) (l : Chars) (rest : List Chars) (m : Chars) (e : Nat),
      materialSearch (stripChars l) = some (m, e) →
      (∃ d ∈ (stripChars l).drop e, isDigitChar d = true) →
      ∃ c, c ≠ [] ∧ processLines page (l :: rest)
        = ⟨c, cleanMaterial m, page⟩ :: processLines page rest)
  ∧ extract_all_codes "5Rfi12/8cm,L=3.5m' 7Rfi10/10cm".data [] "1"
      = ([⟨"7".data, "5Rfi12/8cm,L=3.5m".data, "1"⟩], [("7".data, 1)]) := by
  refine ⟨?_, ?_, by decide⟩
  · intro rt h
    obtain ⟨c, hc⟩ := strictCircleSearch_of_digit h
    exact ⟨c, hc, strictCircleSearch_ne_nil hc⟩
  · intro page l rest m e hmat hd
    obtain ⟨c, hc⟩ := strictCircleSearch_of_digit hd
    have hne : ¬ stripChars l = [] := by
      intro h
      rw [h] at hmat
      simp [materialSearch, materialSearchAux] at hmat
    refine ⟨c, strictCircleSearch_ne_nil hc, ?_⟩
    rw [processLines, if_neg hne]
    simp only [lineRecord, hmat, hc]

theorem c10_digit_always_associates_witness :
    (∃ d ∈ " abc123def".data, isDigitChar d = true)
  ∧ (∃ c, strictCircleSearch " abc123def".data = some c ∧ c ≠ []) := by
  refine ⟨by decide, c10_digit_always_associates.1 " abc123def".data (by decide)⟩

end ClaimC10

section ClaimC3

theorem lookaheadCode_skip_blanks {blanks : List Chars} {nb : Chars}
    (rest : List Chars) (hb : ∀ b ∈ blanks, stripChars b = [])
    (hnb : stripChars nb ≠ []) :
    lookaheadCode (blanks ++ nb :: rest)
      = (if strictCircleFullmatch (stripChars nb) then some (stripChars nb)
         else none) := by
  unfold lookaheadCode
  rw [List.dropWhile_append_of_pos (fun b hb' => decide_eq_true (hb b hb')),
    List.dropWhile_cons_of_neg (by simpa using hnb)]

/-- C3: when the same-line remainder has no strict match, the associator
skips blank lines and examines only the first non-blank following line;
the record's circle code is that line's trimmed content exactly when the
entire trimmed line fully matches the strict pattern, and is absent
otherwise (including when no non-blank line follows); the lines after the
first non-blank candidate are never consulted. -/
theorem c3_next_line_association :
    (∀ (page : String) (l : Chars) (rest : List Chars) (m : Chars) (e : Nat)
        (blanks : List Chars) (nb : Chars),
      materialSearch (stripChars l) = some (m, e) →
      strictCircleSearch ((stripChars l).drop e) = none →
      (∀ b ∈ blanks, stripChars b = []) →
      stripChars nb ≠ [] →
      lookaheadCode (blanks ++ nb :: rest)
        = (if strictCircleFullmatch (stripChars nb) then some (stripChars nb)
           else none)
      ∧ processLines page (l :: (blanks ++ nb :: rest))
        = (if strictCircleFullmatch (stripChars nb)
            then (⟨stripChars nb, cleanMaterial m, page⟩ : ExtractionRecord)
            else ⟨[], cleanMaterial m, page⟩)
          :: processLines page (blanks ++ nb :: rest))
  ∧ (∀ (page : String) (l : Chars) (m : Chars) (e : Nat)
        (blanks : List Chars),
      materialSearch (stripChars l) = some (m, e) →
      strictCircleSearch ((stripChars l).drop e) = none →
      (∀ b ∈ blanks, stripChars b = []) →
      processLines page (l :: blanks)
        = ⟨[], cleanMaterial m, page⟩ :: processLines page blanks)
  ∧ extract_all_codes "5Rfi12/8cm,L=3.5m'\nUT7a extra text".data [] "1"
      = ([⟨[], "5Rfi12/8cm,L=3.5m".data, "1"⟩], []) := by
  refine ⟨?_, ?_, by decide⟩
  · intro page l rest m e blanks nb hmat hstrict hb hnb
    have hla := lookaheadCode_skip_blanks rest hb hnb
    have hne : ¬ stripChars l = [] := by
      intro h
      rw [h] at hmat
      simp [materialSearch, materialSearchAux] at hmat
    refine ⟨hla, ?_⟩
    rw [processLines, if_neg hne]
    by_cases hf : strictCircleFullmatch (stripChars nb) = true
    · simp [lineRecord, hmat, hstrict, hla, hf]
    · simp [lineRecord, hmat, hstrict, hla, hf]
  · intro page l m e blanks hmat hstrict hb
    have hla : lookaheadCode blanks = none := by
      unfold lookaheadCode
      rw [List.dropWhile_eq_nil_iff.mpr (fun x hx => decide_eq_true (hb x hx))]
    have hne : ¬ stripChars l = [] := by
      intro h
      rw [h] at hmat
      simp [materialSearch, materialSearchAux] at hmat
    rw [processLines, if_neg hne]
    simp only [lineRecord, hmat, hstrict, hla]

theorem c3_next_line_association_witness :
    materialSearch (stripChars "5Rfi12/8cm,L=3.5m'".data)
      = some ("5Rfi12/8cm,L=3.5m'".data, 18)
  ∧ strictCircleFullmatch (stripChars "UT7a extra text".data) = false
  ∧ processLines "1" ["5Rfi12/8cm,L=3.5m'".data, "".data,
      "UT7a extra text".data, "T9".data]
      = [⟨[], "5Rfi12/8cm,L=3.5m".data, "1"⟩] := by
  refine ⟨by decide, by decide, ?_⟩
  have h := ((c3_next_line_association.1 "1" "5Rfi12/8cm,L=3.5m'".data
    ["T9".data] "5Rfi12/8cm,L=3.5m'".data 18 ["".data]
    "UT7a extra text".data) (by decide) (by decide) (by decide) (by decide)).2
  exact h.trans (by decide)

end ClaimC3

section ClaimC5

theorem sumValues_cons (kv : Chars × Nat) (cs : CountTable) :
    sumValues (kv :: cs) = kv.2 + sumValues cs := by
  simp [sumValues]

theorem sumValues_bump (k : Chars) :
    ∀ cs : CountTable, sumValues (bump k cs) = sumValues cs + 1 := by
  intro cs
  induction cs with
  | nil => simp [bump, sumValues]
  | cons kv rest ih =>
    obtain ⟨k', n⟩ := kv
    rw [bump]
    by_cases h : k' = k
    · rw [if_pos h, sumValues_cons, sumValues_cons]
      omega
    · rw [if_neg h, sumValues_cons, sumValues_cons, ih]
      omega

theorem sumValues_bumpBy (k : Chars) (v : Nat) :
    ∀ cs : CountTable, sumValues (bumpBy k v cs) = sumValues cs + v := by
  intro cs
  induction cs with
  | nil => simp [bumpBy, sumValues]
  | cons kv rest ih =>
    obtain ⟨k', n⟩ := kv
    rw [bumpBy]
    by_cases h : k' = k
    · rw [if_pos h, sumValues_cons, sumValues_cons]
      omega
    · rw [if_neg h, sumValues_cons, sumValues_cons, ih]
      omega

theorem sumValues_addCounts :
    ∀ (pc acc : CountTable),
      sumValues (addCounts acc pc) = sumValues acc + sumValues pc := by
  intro pc
  induction pc with
  | nil => intro acc; simp [addCounts, sumValues]
  | cons kv rest ih =>
    intro acc
    have : addCounts acc (kv :: rest) = addCounts (bumpBy kv.1 kv.2 acc) rest := by
      simp [addCounts]
    rw [this, ih, sumValues_bumpBy, sumValues_cons]
    omega

theorem sumValues_foldl_bump :
    ∀ (rs : List ExtractionRecord) (cs : CountTable),
      sumValues (rs.foldl
          (fun cs r => if r.circle = [] then cs else bump r.circle cs) cs)
        = sumValues cs + (rs.filter (fun r => r.circle ≠ [])).length := by
  intro rs
  induction rs with
  | nil => intro cs; simp
  | cons r rest ih =>
    intro cs
    rw [List.foldl_cons]
    by_cases h : r.circle = []
    · rw [if_pos h, ih]
      simp [h]
    · rw [if_neg h, ih, sumValues_bump]
      simp [h]
      omega

theorem countsOf_sum (rs : List ExtractionRecord) :
    sumValues (countsOf rs) = (rs.filter (fun r => r.circle ≠ [])).length := by
  have h := sumValues_foldl_bump rs []
  simpa [countsOf, sumValues] using h

/-- Page-level count consistency. -/
theorem extract_all_codes_counts (text : Chars) (tgt : List Chars)
    (page : String) :
    sumValues (extract_all_codes text tgt page).2
      = ((extract_all_codes text tgt page).1.filter
          (fun r => r.circle ≠ [])).length :=
  countsOf_sum _

theorem runPagesAux_counts (f : Chars → Chars) :
    ∀ (pages : List Chars) (n : Nat) (rs : List ExtractionRecord)
      (cs : CountTable),
      sumValues cs = (rs.filter (fun r => r.circle ≠ [])).length →
      sumValues (runPagesAux f pages n (rs, cs)).2
        = ((runPagesAux f pages n (rs, cs)).1.filter
            (fun r => r.circle ≠ [])).length := by
  intro pages
  induction pages with
  | nil => intro n rs cs h; simpa [runPagesAux] using h
  | cons t ts ih =>
    intro n rs cs h
    rw [runPagesAux]
    apply ih
    rw [sumValues_addCounts, h, countsOf_sum]
    simp [List.filter_append]

theorem runPages_counts (f : Chars → Chars) (pages : List Chars) :
    sumValues (runPages f pages).2
      = ((runPages f pages).1.filter (fun r => r.circle ≠ [])).length :=
  runPagesAux_counts f pages 1 [] [] (by simp [sumValues])

/-- C5: in every extraction result — per page and after document-level
aggregation in either driver — the sum of the count-table values equals
the number of records whose circle code is present; absent circle codes
never affect counts. -/
theorem c5_count_consistency :
    (∀ (text : Chars) (tgt : List Chars) (page : String),
      sumValues (extract_all_codes text tgt page).2
        = ((extract_all_codes text tgt page).1.filter
            (fun r => r.circle ≠ [])).length)
  ∧ (∀ (f : Chars → Chars) (pages : List Chars),
      sumValues (runPages f pages).2
        = ((runPages f pages).1.filter (fun r => r.circle ≠ [])).length)
  ∧ (∀ (native : Option (List Chars)) (ocrTexts : List Chars),
      sumValues (extract_all_codes_from_pdf native ocrTexts).counts
        = ((extract_all_codes_from_pdf native ocrTexts).records.filter
            (fun r => r.circle ≠ [])).length)
  ∧ (∀ (native : Option (List Chars)) (ocrTexts : List Chars),
      sumValues (extract_materials native ocrTexts).counts
        = ((extract_materials native ocrTexts).records.filter
            (fun r => r.circle ≠ [])).length) := by
  refine ⟨extract_all_codes_counts, runPages_counts, ?_, ?_⟩
  · intro native ocrTexts
    cases native with
    | none => exact runPages_counts _ _
    | some pages =>
      rw [extract_all_codes_from_pdf]
      by_cases h1 : genericCircleCodes (List.intercalate ['\n'] pages) = []
      · simp [h1, sumValues]
      · by_cases h2 : (runPages id pages).1 = []
        · simp only [h1, if_neg h1, h2, if_pos h2]
          exact runPages_counts _ _
        · simp only [h1, if_neg h1, h2, if_neg h2]
          exact runPages_counts _ _
  · intro native ocrTexts
    cases native with
    | none => exact runPages_counts _ _
    | some pages =>
      rw [extract_materials]
      by_cases h : (runPages id pages).1 = []
      · simp only [if_pos h]
        exact runPages_counts _ _
      · simp only [if_neg h]
        exact runPages_counts _ _

end ClaimC5

section ParserInversion

def IsDigits (d : Chars) : Prop := d ≠ [] ∧ ∀ c ∈ d, isDigitChar c = true

/-- The next character (if any) cannot extend a digit run. -/
def headNotDigit : Chars → Prop
  | [] => True
  | c :: _ => isDigitChar c = false

theorem pDigits_sound {s d rest : Chars} (h : pDigits s = some (d, rest)) :
    IsDigits d ∧ s = d ++ rest := by
  unfold pDigits at h
  by_cases he : s.takeWhile isDigitChar = []
  · simp [he] at h
  · rw [if_neg he] at h
    cases h
    exact ⟨⟨he, fun c hc => List.mem_takeWhile_imp hc⟩,
      (List.takeWhile_append_dropWhile _ _).symm⟩

theorem pDigits_complete_cons {d : Chars} (hd : IsDigits d) (c : Char)
    (hc : isDigitChar c = false) (rest : Chars) :
    pDigits (d ++ c :: rest) = some (d, c :: rest) := by
  have ht : (d ++ c :: rest).takeWhile isDigitChar = d := by
    rw [List.takeWhile_append_of_pos hd.2, List.takeWhile_cons_of_neg (by simp [hc])]
    simp
  have hdp : (d ++ c :: rest).dropWhile isDigitChar = c :: rest := by
    rw [List.dropWhile_append_of_pos hd.2, List.dropWhile_cons_of_neg (by simp [hc])]
  unfold pDigits
  rw [ht, hdp, if_neg hd.1]

theorem pCi_sound :
    ∀ {t s con rem : Chars}, pCi t s = some (con, rem) →
      s = con ++ rem ∧ List.Forall₂ (fun a b => charCiEq a b = true) con t := by
  intro t
  induction t with
  | nil =>
    intro s con rem h
    cases h
    exact ⟨rfl, List.Forall₂.nil⟩
  | cons tc ts ih =>
    intro s con rem h
    cases s with
    | nil => cases h
    | cons c rest =>
      rw [pCi] at h
      by_cases hc : charCiEq c tc = true
      · rw [if_pos hc] at h
        cases hrec : pCi ts rest with
        | none => rw [hrec] at h; cases h
        | some pr =>
          obtain ⟨con', rem'⟩ := pr
          rw [hrec] at h
          cases h
          obtain ⟨he, hfor⟩ := ih hrec
          exact ⟨by rw [he, List.cons_append], List.Forall₂.cons hc hfor⟩
      · rw [if_neg hc] at h
        cases h

theorem pCi_complete :
    ∀ {t con : Chars}, List.Forall₂ (fun a b => charCiEq a b = true) con t →
      ∀ rem : Chars, pCi t (con ++ rem) = some (con, rem) := by
  intro t con h
  induction h with
  | nil => intro rem; rfl
  | cons hab htail ih =>
    intro rem
    rw [List.cons_append, pCi, if_pos hab, ih]

theorem pChar_sound {ch : Char} {s rest : Chars} (h : pChar ch s = some rest) :
    s = ch :: rest := by
  cases s with
  | nil => cases h
  | cons c r =>
    rw [pChar] at h
    by_cases hc : c = ch
    · rw [if_pos hc] at h
      cases h
      rw [hc]
    · rw [if_neg hc] at h
      cases h

theorem pChar_complete (ch : Char) (rest : Chars) :
    pChar ch (ch :: rest) = some rest := by
  simp [pChar]

theorem pChar_neg {ch c : Char} (h : c ≠ ch) (rest : Chars) :
    pChar ch (c :: rest) = none := by
  simp [pChar, h]

/-- Inverting a `Forall₂` case-insensitive match against a concrete
three-character pattern. -/
theorem forall₂_three {con : Chars} {a b c : Char}
    (h : List.Forall₂ (fun x y => charCiEq x y = true) con [a, b, c]) :
    ∃ x y z, con = [x, y, z] ∧ charCiEq x a = true ∧ charCiEq y b = true
      ∧ charCiEq z c = true := by
  cases h with
  | cons hx h =>
    rename_i x con'
    cases h with
    | cons hy h =>
      rename_i y con''
      cases h with
      | cons hz h =>
        rename_i z con'''
        cases h
        exact ⟨x, y, z, rfl, hx, hy, hz⟩

theorem forall₂_two {con : Chars} {a b : Char}
    (h : List.Forall₂ (fun x y => charCiEq x y = true) con [a, b]) :
    ∃ x y, con = [x, y] ∧ charCiEq x a = true ∧ charCiEq y b = true := by
  cases h with
  | cons hx h =>
    rename_i x con'
    cases h with
    | cons hy h =>
      rename_i y con''
      cases h
      exact ⟨x, y, rfl, hx, hy⟩

end ParserInversion

section ClaimC9

/-- The validator pattern exactly as the specification sentence writes it:
`^\d+Rfi\d+/\d+cm,L=\d+(\.\d+)?m$`, case-sensitive, anchored at both ends,
with the optional fraction requiring at least one digit after the decimal
point.  A second, specification-side definition, kept for comparison with
the code's `validate_material_code`. -/
def specStrictValid (s : Chars) : Bool :=
  match pDigits s with
  | none => false
  | some (_, s1) =>
  if ['R', 'f', 'i'].isPrefixOf s1 then
    match pDigits (s1.drop 3) with
    | none => false
    | some (_, s3) =>
    match pChar '/' s3 with
    | none => false
    | some s4 =>
    match pDigits s4 with
    | none => false
    | some (_, s5) =>
    if ['c', 'm', ',', 'L', '='].isPrefixOf s5 then
      match pDigits (s5.drop 5) with
      | none => false
      | some (_, s9) =>
      match pChar '.' s9 with
      | some t =>
        (match pDigits t with
         | none => false
         | some (_, t2) => t2 = ['m'])
      | none => s9 = ['m']
    else false
  else false

/-- C9 counterexample: the validator accepts `5rfi12/8cm,L=3.m` — matched
case-insensitively and with a decimal point followed by no fractional
digits — which the claimed pattern `^\d+Rfi\d+/\d+cm,L=\d+(\.\d+)?m$`
rejects; the claimed pattern is not vacuous (it accepts a canonical
code). -/
theorem c9_counterexample :
    validate_material_code "5rfi12/8cm,L=3.m".data = true
    ∧ specStrictValid "5rfi12/8cm,L=3.m".data = false
    ∧ specStrictValid "5Rfi12/8cm,L=3.5m".data = true := by
  refine ⟨by decide, by decide, by decide⟩

/-- The language the validator actually accepts: the same skeleton as the
claimed pattern, but with case-insensitive literals, a decimal point
optionally followed by zero or more fractional digits, and an optional
single trailing newline (admitted by Python's `$`). -/
def StrictValidates (s : Chars) : Prop :=
  ∃ (d1 d2 d3 d4 frac nl : Chars) (x y z cx mx lx mm : Char),
    IsDigits d1 ∧ IsDigits d2 ∧ IsDigits d3 ∧ IsDigits d4 ∧
    (x = 'r' ∨ x = 'R') ∧ (y = 'f' ∨ y = 'F') ∧ (z = 'i' ∨ z = 'I') ∧
    (cx = 'c' ∨ cx = 'C') ∧ (mx = 'm' ∨ mx = 'M') ∧
    (lx = 'l' ∨ lx = 'L') ∧ (mm = 'm' ∨ mm = 'M') ∧
    (frac = [] ∨ ∃ fd, (∀ u ∈ fd, isDigitChar u = true) ∧ frac = '.' :: fd) ∧
    (nl = [] ∨ nl = ['\n']) ∧
    s = d1 ++ [x, y, z] ++ d2 ++ '/' :: d3 ++ [cx, mx] ++ ',' :: [lx, '=']
        ++ d4 ++ frac ++ mm :: nl

theorem pEndM_sound {s : Chars} (h : pEndM s = true) :
    ∃ mm nl, (mm = 'm' ∨ mm = 'M') ∧ (nl = [] ∨ nl = ['\n'])
      ∧ s = mm :: nl := by
  cases s with
  | nil => cases h
  | cons mm s11 =>
    rw [pEndM] at h
    simp only [Bool.and_eq_true, Bool.or_eq_true, decide_eq_true_eq] at h
    exact ⟨mm, s11, charCiEq_elim h.1 (by decide), h.2, rfl⟩

/-- C9 amended: `validate_material_code` accepts exactly the
case-insensitive variant of the claimed pattern in which the optional
decimal point may be followed by zero or more fractional digits and a
single trailing newline is tolerated. -/
theorem c9_validator_characterization (s : Chars) :
    validate_material_code s = true ↔ StrictValidates s := by
  constructor
  · intro h
    unfold validate_material_code at h
    cases h1 : pDigits s with
    | none => simp [h1] at h
    | some pr1 =>
    obtain ⟨d1, s1⟩ := pr1
    simp only [h1] at h
    cases h2 : pCi ['r', 'f', 'i'] s1 with
    | none => simp [h2] at h
    | some pr2 =>
    obtain ⟨rfiCon, s2⟩ := pr2
    simp only [h2] at h
    cases h3 : pDigits s2 with
    | none => simp [h3] at h
    | some pr3 =>
    obtain ⟨d2, s3⟩ := pr3
    simp only [h3] at h
    cases h4 : pChar '/' s3 with
    | none => simp [h4] at h
    | some s4 =>
    simp only [h4] at h
    cases h5 : pDigits s4 with
    | none => simp [h5] at h
    | some pr5 =>
    obtain ⟨d3, s5⟩ := pr5
    simp only [h5] at h
    cases h6 : pCi ['c', 'm'] s5 with
    | none => simp [h6] at h
    | some pr6 =>
    obtain ⟨cmCon, s6⟩ := pr6
    simp only [h6] at h
    cases h7 : pChar ',' s6 with
    | none => simp [h7] at h
    | some s7 =>
    simp only [h7] at h
    cases h8 : pCi ['l', '='] s7 with
    | none => simp [h8] at h
    | some pr8 =>
    obtain ⟨lCon, s8⟩ := pr8
    simp only [h8] at h
    cases h9 : pDigits s8 with
    | none => simp [h9] at h
    | some pr9 =>
    obtain ⟨d4, s9⟩ := pr9
    simp only [h9] at h
    -- decompose every step
    obtain ⟨hd1, hs⟩ := pDigits_sound h1
    obtain ⟨hs1, hfor1⟩ := pCi_sound h2
    obtain ⟨x, y, z, rfl, hx, hy, hz⟩ := forall₂_three hfor1
    obtain ⟨hd2, hs2⟩ := pDigits_sound h3
    have hs3 := pChar_sound h4
    obtain ⟨hd3, hs4⟩ := pDigits_sound h5
    obtain ⟨hs5, hfor2⟩ := pCi_sound h6
    obtain ⟨cx, mx, rfl, hcx, hmx⟩ := forall₂_two hfor2
    have hs6 := pChar_sound h7
    obtain ⟨hs7, hfor3⟩ := pCi_sound h8
    obtain ⟨lx, ex, rfl, hlx, hex⟩ := forall₂_two hfor3
    obtain ⟨hd4, hs8⟩ := pDigits_sound h9
    have hex' : ex = '=' := charCiEq_elim_noletter hex (by decide)
    subst hex'
    cases h10 : pChar '.' s9 with
    | some t =>
      simp only [h10] at h
      have hs9 := pChar_sound h10
      obtain ⟨mm, nl, hmm, hnl, hdw⟩ := pEndM_sound h
      have ht : t = t.takeWhile isDigitChar ++ mm :: nl := by
        conv_lhs => rw [← List.takeWhile_append_dropWhile isDigitChar t]
        rw [hdw]
      refine ⟨d1, d2, d3, d4, '.' :: t.takeWhile isDigitChar, nl,
        x, y, z, cx, mx, lx, mm, hd1, hd2, hd3, hd4,
        charCiEq_elim hx (by decide), charCiEq_elim hy (by decide),
        charCiEq_elim hz (by decide), charCiEq_elim hcx (by decide),
        charCiEq_elim hmx (by decide), charCiEq_elim hlx (by decide),
        hmm, Or.inr ⟨t.takeWhile isDigitChar,
          fun u hu => List.mem_takeWhile_imp hu, rfl⟩, hnl, ?_⟩
      rw [hs, hs1, hs2, hs3, hs4, hs5, hs6, hs7, hs8, hs9]
      conv_lhs => rw [ht]
      simp [List.append_assoc]
    | none =>
      simp only [h10] at h
      obtain ⟨mm, nl, hmm, hnl, hs9⟩ := pEndM_sound h
      refine ⟨d1, d2, d3, d4, [], nl,
        x, y, z, cx, mx, lx, mm, hd1, hd2, hd3, hd4,
        charCiEq_elim hx (by decide), charCiEq_elim hy (by decide),
        charCiEq_elim hz (by decide), charCiEq_elim hcx (by decide),
        charCiEq_elim hmx (by decide), charCiEq_elim hlx (by decide),
        hmm, Or.inl rfl, hnl, ?_⟩
      rw [hs, hs1, hs2, hs3, hs4, hs5, hs6, hs7, hs8, hs9]
      simp [List.append_assoc]
  · rintro ⟨d1, d2, d3, d4, frac, nl, x, y, z, cx, mx, lx, mm,
      hd1, hd2, hd3, hd4, hx, hy, hz, hcx, hmx, hlx, hmm, hfrac, hnl, rfl⟩
    have hcix : charCiEq x 'r' = true := by rcases hx with rfl | rfl <;> decide
    have hciy : charCiEq y 'f' = true := by rcases hy with rfl | rfl <;> decide
    have hciz : charCiEq z 'i' = true := by rcases hz with rfl | rfl <;> decide
    have hcicx : charCiEq cx 'c' = true := by
      rcases hcx with rfl | rfl <;> decide
    have hcimx : charCiEq mx 'm' = true := by
      rcases hmx with rfl | rfl <;> decide
    have hcilx : charCiEq lx 'l' = true := by
      rcases hlx with rfl | rfl <;> decide
    have hcimm : charCiEq mm 'm' = true := by
      rcases hmm with rfl | rfl <;> decide
    have hxd : isDigitChar x = false := by rcases hx with rfl | rfl <;> decide
    have hcxd : isDigitChar cx = false := by
      rcases hcx with rfl | rfl <;> decide
    have hmmd : isDigitChar mm = false := by
      rcases hmm with rfl | rfl <;> decide
    have hceq : charCiEq '=' '=' = true := by decide
    have hmdot : mm ≠ '.' := by rcases hmm with rfl | rfl <;> decide
    rcases hfrac with rfl | ⟨fd, hfd, rfl⟩
    · rcases hnl with rfl | rfl <;>
        simp [validate_material_code, pCi, pChar, pEndM,
          pDigits_complete_cons hd1 x hxd,
          pDigits_complete_cons hd2 '/' (by decide),
          pDigits_complete_cons hd3 cx hcxd,
          pDigits_complete_cons hd4 mm hmmd, hceq, hmdot,
          hcix, hciy, hciz, hcicx, hcimx, hcilx, hcimm]
    · have hdw : (fd ++ mm :: nl).dropWhile isDigitChar = mm :: nl := by
        rw [List.dropWhile_append_of_pos hfd,
          List.dropWhile_cons_of_neg (by simp [hmmd])]
      rcases hnl with rfl | rfl <;>
        simp [validate_material_code, pCi, pChar, pEndM, hdw,
          pDigits_complete_cons hd1 x hxd,
          pDigits_complete_cons hd2 '/' (by decide),
          pDigits_complete_cons hd3 cx hcxd,
          pDigits_complete_cons hd4 '.' (by decide), hceq, hmdot,
          hcix, hciy, hciz, hcicx, hcimx, hcilx, hcimm]

end ClaimC9

section ClaimC6Grammar

/-- The iterated `(?:/\d+)*` part of Form A's middle group. -/
inductive SlashGroups : Chars → Prop
  | nil : SlashGroups []
  | cons (d rest : Chars) : IsDigits d → SlashGroups rest →
      SlashGroups ('/' :: (d ++ rest))

/-- The tail of Form A after the middle group:
`["cm"] [","] "L=" <number> "m" [apostrophe]`, case-insensitive, where the
number is an integer with an optional decimal point and optional
fractional digits. -/
def FormATail (tail : Chars) : Prop :=
  ∃ (cmP commaP d3 fracP apP : Chars) (lx mch : Char),
    (cmP = [] ∨ ∃ cu mu, (cu = 'c' ∨ cu = 'C') ∧ (mu = 'm' ∨ mu = 'M')
      ∧ cmP = [cu, mu]) ∧
    (commaP = [] ∨ commaP = [',']) ∧
    (lx = 'l' ∨ lx = 'L') ∧
    IsDigits d3 ∧
    (fracP = [] ∨ ∃ fd, (∀ u ∈ fd, isDigitChar u = true) ∧ fracP = '.' :: fd) ∧
    (mch = 'm' ∨ mch = 'M') ∧
    (apP = [] ∨ apP = ['\'']) ∧
    tail = cmP ++ commaP ++ [lx, '='] ++ d3 ++ fracP ++ [mch] ++ apP

/-- Form A of the material-code grammar:
`<int> "Rfi" [<int> ("/" <int>)*] ["cm"] [","] "L=" <number> "m"
[apostrophe]`, case-insensitive. -/
def FormA (s : Chars) : Prop :=
  ∃ (d1 grp tail : Chars) (x y z : Char),
    IsDigits d1 ∧
    (x = 'r' ∨ x = 'R') ∧ (y = 'f' ∨ y = 'F') ∧ (z = 'i' ∨ z = 'I') ∧
    (grp = [] ∨ ∃ d2 sl, IsDigits d2 ∧ SlashGroups sl ∧ grp = d2 ++ sl) ∧
    FormATail tail ∧
    s = d1 ++ [x, y, z] ++ grp ++ tail

/-- Form B of the material-code grammar: `<int> "Rfi" <int> "/" <int>
"cm"`, case-insensitive. -/
def FormB (s : Chars) : Prop :=
  ∃ (d1 d2 d3 : Chars) (x y z cu mu : Char),
    IsDigits d1 ∧ IsDigits d2 ∧ IsDigits d3 ∧
    (x = 'r' ∨ x = 'R') ∧ (y = 'f' ∨ y = 'F') ∧ (z = 'i' ∨ z = 'I') ∧
    (cu = 'c' ∨ cu = 'C') ∧ (mu = 'm' ∨ mu = 'M') ∧
    s = d1 ++ [x, y, z] ++ d2 ++ '/' :: d3 ++ [cu, mu]

theorem pOptCi_sound {t s con rem : Chars} (h : pOptCi t s = (con, rem)) :
    (con = [] ∧ rem = s)
    ∨ (s = con ++ rem
        ∧ List.Forall₂ (fun a b => charCiEq a b = true) con t) := by
  unfold pOptCi at h
  cases hc : pCi t s with
  | none =>
    rw [hc] at h
    cases h
    exact Or.inl ⟨rfl, rfl⟩
  | some pr =>
    obtain ⟨c', r'⟩ := pr
    rw [hc] at h
    cases h
    exact Or.inr (pCi_sound hc)

theorem pOptChar_sound {ch : Char} {s con rem : Chars}
    (h : pOptChar ch s = (con, rem)) :
    (con = [] ∧ rem = s) ∨ (con = [ch] ∧ s = ch :: rem) := by
  cases s with
  | nil =>
    simp only [pOptChar] at h
    cases h
    exact Or.inl ⟨rfl, rfl⟩
  | cons x r =>
    simp only [pOptChar] at h
    by_cases hx : x = ch
    · rw [if_pos hx] at h
      cases h
      exact Or.inr ⟨by rw [hx], by rw [hx]⟩
    · rw [if_neg hx] at h
      cases h
      exact Or.inl ⟨rfl, rfl⟩

theorem pSlashesAux_sound :
    ∀ {fuel : Nat} {s a rest : Chars}, pSlashesAux fuel s = (a, rest) →
      SlashGroups a ∧ s = a ++ rest := by
  intro fuel
  induction fuel with
  | zero =>
    intro s a rest h
    cases h
    exact ⟨SlashGroups.nil, rfl⟩
  | succ f ih =>
    intro s a rest h
    cases s with
    | nil =>
      cases h
      exact ⟨SlashGroups.nil, rfl⟩
    | cons c r =>
      rw [pSlashesAux] at h
      by_cases hc : c = '/'
      · rw [if_pos hc] at h
        by_cases hd : r.takeWhile isDigitChar = []
        · rw [if_pos hd] at h
          cases h
          exact ⟨SlashGroups.nil, rfl⟩
        · rw [if_neg hd] at h
          cases hrec : pSlashesAux f (r.dropWhile isDigitChar) with
          | mk a' b' =>
            rw [hrec] at h
            cases h
            obtain ⟨hsl, hdec⟩ := ih hrec
            subst hc
            refine ⟨SlashGroups.cons _ _
              ⟨hd, fun u hu => List.mem_takeWhile_imp hu⟩ hsl, ?_⟩
            have : r = r.takeWhile isDigitChar ++ r.dropWhile isDigitChar :=
              (List.takeWhile_append_dropWhile _ _).symm
            conv_lhs => rw [this, hdec]
            simp [List.append_assoc]
      · rw [if_neg hc] at h
        cases h
        exact ⟨SlashGroups.nil, rfl⟩

theorem pSlashes_sound {s a rest : Chars} (h : pSlashes s = (a, rest)) :
    SlashGroups a ∧ s = a ++ rest :=
  pSlashesAux_sound h

theorem matchFormat1Tail_sound {s3 tail : Chars}
    (h : matchFormat1Tail s3 = some tail) : FormATail tail := by
  unfold matchFormat1Tail at h
  cases h1 : pOptCi ['c', 'm'] s3 with
  | mk cmP s4 =>
  simp only [h1] at h
  cases h2 : pOptChar ',' s4 with
  | mk commaP s5 =>
  simp only [h2] at h
  cases h3 : pCi ['l', '='] s5 with
  | none => simp [h3] at h
  | some pr3 =>
  obtain ⟨lP, s6⟩ := pr3
  simp only [h3] at h
  cases h4 : pDigits s6 with
  | none => simp [h4] at h
  | some pr4 =>
  obtain ⟨d3, s7⟩ := pr4
  simp only [h4] at h
  obtain ⟨hd3, _⟩ := pDigits_sound h4
  obtain ⟨_, hfor⟩ := pCi_sound h3
  obtain ⟨lx, ex, rfl, hlx, hex⟩ := forall₂_two hfor
  have hex' : ex = '=' := charCiEq_elim_noletter hex (by decide)
  subst hex'
  have hcm : cmP = [] ∨ ∃ cu mu, (cu = 'c' ∨ cu = 'C') ∧ (mu = 'm' ∨ mu = 'M')
      ∧ cmP = [cu, mu] := by
    rcases pOptCi_sound h1 with ⟨rfl, _⟩ | ⟨_, hfor2⟩
    · exact Or.inl rfl
    · obtain ⟨cu, mu, rfl, hcu, hmu⟩ := forall₂_two hfor2
      exact Or.inr ⟨cu, mu, charCiEq_elim hcu (by decide),
        charCiEq_elim hmu (by decide), rfl⟩
  have hcomma : commaP = [] ∨ commaP = [','] := by
    rcases pOptChar_sound h2 with ⟨rfl, _⟩ | ⟨rfl, _⟩
    · exact Or.inl rfl
    · exact Or.inr rfl
  cases h5 : pChar '.' s7 with
  | some t =>
    simp only [h5] at h
    cases hs8 : t.dropWhile isDigitChar with
    | nil => simp only [hs8] at h; cases h
    | cons mc s9 =>
      simp only [hs8] at h
      by_cases hm : charCiEq mc 'm' = true
      · rw [if_pos hm] at h
        cases h6 : pOptChar '\'' s9 with
        | mk apP s10 =>
          simp only [h6] at h
          cases h
          refine ⟨cmP, commaP, d3, '.' :: t.takeWhile isDigitChar, apP,
            lx, mc, hcm, hcomma, charCiEq_elim hlx (by decide), hd3,
            Or.inr ⟨t.takeWhile isDigitChar,
              fun u hu => List.mem_takeWhile_imp hu, rfl⟩,
            charCiEq_elim hm (by decide), ?_, by simp⟩
          rcases pOptChar_sound h6 with ⟨rfl, _⟩ | ⟨rfl, _⟩
          · exact Or.inl rfl
          · exact Or.inr rfl
      · rw [if_neg hm] at h
        cases h
  | none =>
    simp only [h5] at h
    cases hs7 : s7 with
    | nil => rw [hs7] at h; cases h
    | cons mc s9 =>
      rw [hs7] at h
      simp only [] at h
      by_cases hm : charCiEq mc 'm' = true
      · rw [if_pos hm] at h
        cases h6 : pOptChar '\'' s9 with
        | mk apP s10 =>
          simp only [h6] at h
          cases h
          refine ⟨cmP, commaP, d3, [], apP, lx, mc, hcm, hcomma,
            charCiEq_elim hlx (by decide), hd3, Or.inl rfl,
            charCiEq_elim hm (by decide), ?_, by simp⟩
          rcases pOptChar_sound h6 with ⟨rfl, _⟩ | ⟨rfl, _⟩
          · exact Or.inl rfl
          · exact Or.inr rfl
      · rw [if_neg hm] at h
        cases h

theorem matchFormat1At_sound {s m : Chars} (h : matchFormat1At s = some m) :
    FormA m := by
  unfold matchFormat1At at h
  cases h1 : pDigits s with
  | none => simp [h1] at h
  | some pr1 =>
  obtain ⟨d1, s1⟩ := pr1
  simp only [h1] at h
  cases h2 : pCi ['r', 'f', 'i'] s1 with
  | none => simp [h2] at h
  | some pr2 =>
  obtain ⟨rfiCon, s2⟩ := pr2
  simp only [h2] at h
  obtain ⟨hd1, _⟩ := pDigits_sound h1
  obtain ⟨_, hfor⟩ := pCi_sound h2
  obtain ⟨x, y, z, rfl, hx, hy, hz⟩ := forall₂_three hfor
  cases h3 : pDigits s2 with
  | none =>
    simp only [h3] at h
    cases h4 : matchFormat1Tail s2 with
    | none => rw [h4] at h; cases h
    | some tail =>
      rw [h4] at h
      cases h
      exact ⟨d1, [], tail, x, y, z, hd1, charCiEq_elim hx (by decide),
        charCiEq_elim hy (by decide), charCiEq_elim hz (by decide),
        Or.inl rfl, matchFormat1Tail_sound h4, rfl⟩
  | some pr3 =>
    obtain ⟨d2, t⟩ := pr3
    simp only [h3] at h
    cases h4 : pSlashes t with
    | mk sl t2 =>
      simp only [h4] at h
      cases h5 : matchFormat1Tail t2 with
      | none => rw [h5] at h; cases h
      | some tail =>
        rw [h5] at h
        cases h
        obtain ⟨hd2, _⟩ := pDigits_sound h3
        obtain ⟨hsl, _⟩ := pSlashes_sound h4
        exact ⟨d1, d2 ++ sl, tail, x, y, z, hd1,
          charCiEq_elim hx (by decide), charCiEq_elim hy (by decide),
          charCiEq_elim hz (by decide), Or.inr ⟨d2, sl, hd2, hsl, rfl⟩,
          matchFormat1Tail_sound h5, rfl⟩

theorem matchFormat2At_sound {s m : Chars} (h : matchFormat2At s = some m) :
    FormB m := by
  unfold matchFormat2At at h
  cases h1 : pDigits s with
  | none => simp [h1] at h
  | some pr1 =>
  obtain ⟨d1, s1⟩ := pr1
  simp only [h1] at h
  cases h2 : pCi ['r', 'f', 'i'] s1 with
  | none => simp [h2] at h
  | some pr2 =>
  obtain ⟨rfiCon, s2⟩ := pr2
  simp only [h2] at h
  cases h3 : pDigits s2 with
  | none => simp [h3] at h
  | some pr3 =>
  obtain ⟨d2, s3⟩ := pr3
  simp only [h3] at h
  cases h4 : pChar '/' s3 with
  | none => simp [h4] at h
  | some s4 =>
  simp only [h4] at h
  cases h5 : pDigits s4 with
  | none => simp [h5] at h
  | some pr5 =>
  obtain ⟨d3, s5⟩ := pr5
  simp only [h5] at h
  cases h6 : pCi ['c', 'm'] s5 with
  | none => simp [h6] at h
  | some pr6 =>
  obtain ⟨cmCon, s6⟩ := pr6
  simp only [h6] at h
  cases h
  obtain ⟨hd1, _⟩ := pDigits_sound h1
  obtain ⟨_, hfor1⟩ := pCi_sound h2
  obtain ⟨x, y, z, rfl, hx, hy, hz⟩ := forall₂_three hfor1
  obtain ⟨hd2, _⟩ := pDigits_sound h3
  obtain ⟨hd3, _⟩ := pDigits_sound h5
  obtain ⟨_, hfor2⟩ := pCi_sound h6
  obtain ⟨cu, mu, rfl, hcu, hmu⟩ := forall₂_two hfor2
  exact ⟨d1, d2, d3, x, y, z, cu, mu, hd1, hd2, hd3,
    charCiEq_elim hx (by decide), charCiEq_elim hy (by decide),
    charCiEq_elim hz (by decide), charCiEq_elim hcu (by decide),
    charCiEq_elim hmu (by decide), rfl⟩

theorem digit_not_ws {c : Char} (h : isDigitChar c = true) :
    isWsChar c = false := by
  by_contra hw
  simp only [Bool.not_eq_false] at hw
  simp only [isWsChar, Bool.or_eq_true, decide_eq_true_eq] at hw
  rcases hw with ((((rfl | rfl) | rfl) | rfl) | rfl) | rfl <;>
    exact absurd h (by decide)

theorem slashGroups_not_ws {sl : Chars} (h : SlashGroups sl) :
    ∀ c ∈ sl, isWsChar c = false := by
  induction h with
  | nil => intro c hc; cases hc
  | cons d rest hd _ ih =>
    intro c hc
    rcases List.mem_cons.mp hc with rfl | hc'
    · decide
    · rcases List.mem_append.mp hc' with hc'' | hc''
      · exact digit_not_ws (hd.2 c hc'')
      · exact ih c hc''

theorem formATail_not_ws {tail : Chars} (h : FormATail tail) :
    ∀ c ∈ tail, isWsChar c = false := by
  obtain ⟨cmP, commaP, d3, fracP, apP, lx, mch, hcm, hcomma, hlx, hd3,
    hfrac, hmch, hap, rfl⟩ := h
  intro c hc
  rcases List.mem_append.mp hc with hc | hc
  · rcases List.mem_append.mp hc with hc | hc
    · rcases List.mem_append.mp hc with hc | hc
      · rcases List.mem_append.mp hc with hc | hc
        · rcases List.mem_append.mp hc with hc | hc
          · rcases List.mem_append.mp hc with hc | hc
            · rcases hcm with rfl | ⟨cu, mu, hcu, hmu, rfl⟩
              · cases hc
              · rcases List.mem_cons.mp hc with rfl | hc'
                · rcases hcu with rfl | rfl <;> decide
                · rcases List.mem_cons.mp hc' with rfl | hc''
                  · rcases hmu with rfl | rfl <;> decide
                  · cases hc''
            · rcases hcomma with rfl | rfl
              · cases hc
              · rcases List.mem_singleton.mp hc with rfl
                decide
          · rcases List.mem_cons.mp hc with rfl | hc'
            · rcases hlx with rfl | rfl <;> decide
            · rcases List.mem_cons.mp hc' with rfl | hc''
              · decide
              · cases hc''
        · exact digit_not_ws (hd3.2 c hc)
      · rcases hfrac with rfl | ⟨fd, hfd, rfl⟩
        · cases hc
        · rcases List.mem_cons.mp hc with rfl | hc'
          · decide
          · exact digit_not_ws (hfd c hc')
    · rcases List.mem_singleton.mp hc with rfl
      rcases hmch with rfl | rfl <;> decide
  · rcases hap with rfl | rfl
    · cases hc
    · rcases List.mem_singleton.mp hc with rfl
      decide

theorem formA_not_ws {s : Chars} (h : FormA s) :
    ∀ c ∈ s, isWsChar c = false := by
  obtain ⟨d1, grp, tail, x, y, z, hd1, hx, hy, hz, hgrp, htail, rfl⟩ := h
  intro c hc
  rcases List.mem_append.mp hc with hc | hc
  · rcases List.mem_append.mp hc with hc | hc
    · rcases List.mem_append.mp hc with hc | hc
      · exact digit_not_ws (hd1.2 c hc)
      · rcases List.mem_cons.mp hc with rfl | hc'
        · rcases hx with rfl | rfl <;> decide
        rcases List.mem_cons.mp hc' with rfl | hc''
        · rcases hy with rfl | rfl <;> decide
        rcases List.mem_cons.mp hc'' with rfl | hc'''
        · rcases hz with rfl | rfl <;> decide
        · cases hc'''
    · rcases hgrp with rfl | ⟨d2, sl, hd2, hsl, rfl⟩
      · cases hc
      · rcases List.mem_append.mp hc with hc' | hc'
        · exact digit_not_ws (hd2.2 c hc')
        · exact slashGroups_not_ws hsl c hc'
  · exact formATail_not_ws htail c hc

theorem formB_not_ws {s : Chars} (h : FormB s) :
    ∀ c ∈ s, isWsChar c = false := by
  obtain ⟨d1, d2, d3, x, y, z, cu, mu, hd1, hd2, hd3, hx, hy, hz, hcu, hmu,
    rfl⟩ := h
  intro c hc
  rcases List.mem_append.mp hc with hc | hc
  · rcases List.mem_append.mp hc with hc | hc
    · rcases List.mem_append.mp hc with hc | hc
      · rcases List.mem_append.mp hc with hc | hc
        · exact digit_not_ws (hd1.2 c hc)
        · rcases List.mem_cons.mp hc with rfl | hc'
          · rcases hx with rfl | rfl <;> decide
          rcases List.mem_cons.mp hc' with rfl | hc''
          · rcases hy with rfl | rfl <;> decide
          rcases List.mem_cons.mp hc'' with rfl | hc'''
          · rcases hz with rfl | rfl <;> decide
          · cases hc'''
      · exact digit_not_ws (hd2.2 c hc)
    · rcases List.mem_cons.mp hc with rfl | hc'
      · decide
      · exact digit_not_ws (hd3.2 c hc')
  · rcases List.mem_cons.mp hc with rfl | hc'
    · rcases hcu with rfl | rfl <;> decide
    rcases List.mem_cons.mp hc' with rfl | hc''
    · rcases hmu with rfl | rfl <;> decide
    · cases hc''

end ClaimC6Grammar

section ClaimC6Cleanup

theorem isPrefixOf_append {t : Chars} :
    ∀ {s : Chars}, t.isPrefixOf s → s = t ++ s.drop t.length := by
  induction t with
  | nil => intro s _; simp
  | cons a t' ih =>
    intro s h
    cases s with
    | nil => simp [List.isPrefixOf] at h
    | cons b s' =>
      simp only [List.isPrefixOf, Bool.and_eq_true, beq_iff_eq] at h
      obtain ⟨rfl, h2⟩ := h
      simpa using ih h2

theorem dropWhile_ws_of_nows {u : Chars}
    (h : ∀ c ∈ u, isWsChar c = false) : u.dropWhile isWsChar = u := by
  cases u with
  | nil => rfl
  | cons a r =>
    exact List.dropWhile_cons_of_neg (by simp [h a (List.mem_cons_self _ _)])

theorem matchToksRest_wsfree :
    ∀ {toks : List Chars} {s rem : Chars},
      (∀ c ∈ s, isWsChar c = false) → matchToksRest toks s = some rem →
      s = toks.join ++ rem := by
  intro toks
  induction toks with
  | nil =>
    intro s rem _ h
    cases h
    simp
  | cons t ts ih =>
    intro s rem hws h
    rw [matchToksRest] at h
    by_cases hp : t.isPrefixOf s
    · rw [if_pos hp] at h
      have hs := isPrefixOf_append hp
      have hnws : ∀ c ∈ s.drop t.length, isWsChar c = false :=
        fun c hc => hws c ((List.drop_sublist _ _).mem hc)
      rw [dropWhile_ws_of_nows hnws] at h
      have := ih hnws h
      rw [hs, this]
      simp [List.append_assoc]
    · rw [if_neg hp] at h
      cases h

theorem subWsAux_id {toks : List Chars} (hne : toks.join ≠ []) :
    ∀ (fuel : Nat) {s : Chars}, (∀ c ∈ s, isWsChar c = false) →
      subWsAux toks toks.join fuel s = s := by
  intro fuel
  induction fuel with
  | zero => intro s _; rfl
  | succ f ih =>
    intro s hws
    cases s with
    | nil => rfl
    | cons c rest =>
      rw [subWsAux]
      cases hm : matchWsToks toks (c :: rest) with
      | none =>
        simp only [hm]
        rw [ih (fun u hu => hws u (List.mem_cons_of_mem _ hu))]
      | some rem =>
        simp only [hm]
        have hm' : matchToksRest toks (c :: rest) = some rem := by
          rw [matchWsToks, dropWhile_ws_of_nows hws] at hm
          exact hm
        have hs := matchToksRest_wsfree hws hm'
        have hremws : ∀ u ∈ rem, isWsChar u = false := by
          intro u hu
          exact hws u (by rw [hs]; exact List.mem_append_right _ hu)
        have hlen : rem.length < rest.length + 1 := by
          have hlens : (c :: rest).length = toks.join.length + rem.length := by
            rw [hs, List.length_append]
          have hj : 1 ≤ toks.join.length := by
            cases hj' : toks.join with
            | nil => exact absurd hj' hne
            | cons a b => simp
          simp only [List.length_cons] at hlens
          omega
        rw [if_pos hlen, ih hremws]
        exact hs.symm

theorem subWsPattern_id {toks : List Chars} {repl : Chars}
    (hj : toks.join = repl) (hne : repl ≠ []) {s : Chars}
    (hws : ∀ c ∈ s, isWsChar c = false) :
    subWsPattern toks repl s = s := by
  subst hj
  exact subWsAux_id hne _ hws

/-- On whitespace-free input, the in-loop material cleaning reduces to
stripping trailing apostrophes: each whitespace-removal substitution
rewrites its literal token to itself. -/
theorem cleanMaterial_nows {m : Chars}
    (hws : ∀ c ∈ m, isWsChar c = false) :
    cleanMaterial m = rstripApos m := by
  unfold cleanMaterial
  rw [subWsPattern_id (by decide) (by decide) hws,
    subWsPattern_id (by decide) (by decide) hws,
    subWsPattern_id (by decide) (by decide) hws,
    subWsPattern_id (by decide) (by decide) hws]

theorem mem_rstripApos {c : Char} {s : Chars} (h : c ∈ rstripApos s) :
    c ∈ s := by
  unfold rstripApos at h
  rw [List.mem_reverse] at h
  exact List.mem_reverse.mp ((List.dropWhile_sublist _).mem h)

theorem rstripApos_append_ne {xs : Chars} {c : Char} (h : c ≠ '\'') :
    rstripApos (xs ++ [c]) = xs ++ [c] := by
  unfold rstripApos
  rw [List.reverse_append, List.reverse_singleton, List.singleton_append,
    List.dropWhile_cons_of_neg (by simp [h]), List.reverse_cons,
    List.reverse_reverse]

theorem rstripApos_append_apos (xs : Chars) :
    rstripApos (xs ++ ['\'']) = rstripApos xs := by
  unfold rstripApos
  rw [List.reverse_append, List.reverse_singleton, List.singleton_append,
    List.dropWhile_cons_of_pos (by simp)]

theorem formA_rstripApos {s : Chars} (h : FormA s) : FormA (rstripApos s) := by
  obtain ⟨d1, grp, tail, x, y, z, hd1, hx, hy, hz, hgrp, htail, rfl⟩ := h
  obtain ⟨cmP, commaP, d3, fracP, apP, lx, mch, hcm, hcomma, hlx, hd3,
    hfrac, hmch, hap, rfl⟩ := htail
  have hm : mch ≠ '\'' := by rcases hmch with rfl | rfl <;> decide
  rcases hap with rfl | rfl
  · have he : d1 ++ [x, y, z] ++ grp
        ++ (cmP ++ commaP ++ [lx, '='] ++ d3 ++ fracP ++ [mch] ++ [])
        = (d1 ++ [x, y, z] ++ grp ++ cmP ++ commaP ++ [lx, '='] ++ d3
            ++ fracP) ++ [mch] := by
      simp [List.append_assoc]
    rw [he, rstripApos_append_ne hm, ← he]
    exact ⟨d1, grp, _, x, y, z, hd1, hx, hy, hz, hgrp,
      ⟨cmP, commaP, d3, fracP, [], lx, mch, hcm, hcomma, hlx, hd3, hfrac,
        hmch, Or.inl rfl, rfl⟩, rfl⟩
  · have he : d1 ++ [x, y, z] ++ grp
        ++ (cmP ++ commaP ++ [lx, '='] ++ d3 ++ fracP ++ [mch] ++ ['\''])
        = ((d1 ++ [x, y, z] ++ grp ++ cmP ++ commaP ++ [lx, '='] ++ d3
            ++ fracP) ++ [mch]) ++ ['\''] := by
      simp [List.append_assoc]
    rw [he, rstripApos_append_apos, rstripApos_append_ne hm]
    refine ⟨d1, grp, cmP ++ commaP ++ [lx, '='] ++ d3 ++ fracP ++ [mch] ++ [],
      x, y, z, hd1, hx, hy, hz, hgrp,
      ⟨cmP, commaP, d3, fracP, [], lx, mch, hcm, hcomma, hlx, hd3, hfrac,
        hmch, Or.inl rfl, rfl⟩, ?_⟩
    simp [List.append_assoc]

theorem formB_rstripApos {s : Chars} (h : FormB s) : FormB (rstripApos s) := by
  obtain ⟨d1, d2, d3, x, y, z, cu, mu, hd1, hd2, hd3, hx, hy, hz, hcu, hmu,
    rfl⟩ := h
  have hm : mu ≠ '\'' := by rcases hmu with rfl | rfl <;> decide
  have he : d1 ++ [x, y, z] ++ d2 ++ '/' :: d3 ++ [cu, mu]
      = (d1 ++ [x, y, z] ++ d2 ++ '/' :: d3 ++ [cu]) ++ [mu] := by
    simp [List.append_assoc]
  rw [he, rstripApos_append_ne hm, ← he]
  exact ⟨d1, d2, d3, x, y, z, cu, mu, hd1, hd2, hd3, hx, hy, hz, hcu, hmu,
    rfl⟩

end ClaimC6Cleanup

section ClaimC6

theorem mem_processLines :
    ∀ {page : String} {ls : List Chars} {r : ExtractionRecord},
      r ∈ processLines page ls →
      ∃ l rest, lineRecord page (stripChars l) rest = some r := by
  intro page ls
  induction ls with
  | nil => intro r h; simp [processLines] at h
  | cons l rest ih =>
    intro r h
    rw [processLines] at h
    by_cases hb : stripChars l = []
    · rw [if_pos hb] at h
      exact ih h
    · rw [if_neg hb] at h
      cases hl : lineRecord page (stripChars l) rest with
      | none =>
        rw [hl] at h
        exact ih h
      | some r0 =>
        rw [hl] at h
        rcases List.mem_cons.mp h with rfl | h'
        · exact ⟨l, rest, hl⟩
        · exact ih h'

theorem lineRecord_material {page : String} {line : Chars}
    {rest : List Chars} {r : ExtractionRecord}
    (h : lineRecord page line rest = some r) :
    ∃ m e, materialSearch line = some (m, e)
      ∧ r.material = cleanMaterial m := by
  unfold lineRecord at h
  cases hm : materialSearch line with
  | none => rw [hm] at h; cases h
  | some pr =>
    obtain ⟨m, e⟩ := pr
    simp only [hm] at h
    refine ⟨m, e, rfl, ?_⟩
    cases hs : strictCircleSearch (line.drop e) with
    | some c =>
      simp only [hs] at h
      cases h
      rfl
    | none =>
      simp only [hs] at h
      cases hl : lookaheadCode rest with
      | some c =>
        simp only [hl] at h
        cases h
        rfl
      | none =>
        simp only [hl] at h
        cases h
        rfl

theorem materialSearchAux_match :
    ∀ {s : Chars} {pos : Nat} {m : Chars} {e : Nat},
      materialSearchAux s pos = some (m, e) →
      ∃ t, matchMaterialAt t = some m := by
  intro s
  induction s with
  | nil => intro pos m e h; cases h
  | cons c rest ih =>
    intro pos m e h
    rw [materialSearchAux] at h
    cases hm : matchMaterialAt (c :: rest) with
    | some m0 =>
      rw [hm] at h
      cases h
      exact ⟨c :: rest, hm⟩
    | none =>
      rw [hm] at h
      exact ih h

theorem matchMaterialAt_form {s m : Chars} (h : matchMaterialAt s = some m) :
    matchFormat1At s = some m ∨ matchFormat2At s = some m := by
  unfold matchMaterialAt at h
  cases h1 : matchFormat1At s with
  | some m0 =>
    rw [h1] at h
    cases h
    exact Or.inl rfl
  | none =>
    rw [h1] at h
    exact Or.inr h

/-- C6: every material code in every emitted record satisfies Form A or
Form B of the (case-insensitive) material-code grammar after the in-loop
canonicalization, contains no whitespace, and — since every emission path
requires a successful grammar match — no record is ever emitted for
unmatched text. -/
theorem c6_grammar_soundness (text : Chars) (tgt : List Chars)
    (page : String) (r : ExtractionRecord)
    (h : r ∈ (extract_all_codes text tgt page).1) :
    (FormA r.material ∨ FormB r.material)
    ∧ ∀ c ∈ r.material, isWsChar c = false := by
  have h' : r ∈ processLines page (splitLines (removeCR (curlyToApos text))) := h
  obtain ⟨l, rest, hrec⟩ := mem_processLines h'
  obtain ⟨m, e, hms, hmat⟩ := lineRecord_material hrec
  obtain ⟨t, hmt⟩ := materialSearchAux_match hms
  have hform : FormA m ∨ FormB m := by
    rcases matchMaterialAt_form hmt with h1 | h2
    · exact Or.inl (matchFormat1At_sound h1)
    · exact Or.inr (matchFormat2At_sound h2)
  have hnws : ∀ c ∈ m, isWsChar c = false := by
    rcases hform with h1 | h2
    · exact formA_not_ws h1
    · exact formB_not_ws h2
  have hclean : cleanMaterial m = rstripApos m := cleanMaterial_nows hnws
  rw [hmat, hclean]
  refine ⟨?_, fun c hc => hnws c (mem_rstripApos hc)⟩
  rcases hform with h1 | h2
  · exact Or.inl (formA_rstripApos h1)
  · exact Or.inr (formB_rstripApos h2)

theorem c6_grammar_soundness_witness :
    (⟨"T1".data, "5Rfi12/8cm,L=3.5m".data, "1"⟩ : ExtractionRecord)
      ∈ (extract_all_codes "5Rfi12/8cm,L=3.5m' T1".data [] "1").1
  ∧ (FormA "5Rfi12/8cm,L=3.5m".data ∨ FormB "5Rfi12/8cm,L=3.5m".data) :=
  ⟨by decide, (c6_grammar_soundness "5Rfi12/8cm,L=3.5m' T1".data [] "1"
    ⟨"T1".data, "5Rfi12/8cm,L=3.5m".data, "1"⟩ (by decide)).1⟩

end ClaimC6

end MaterialCounter
